import Mathlib

/-!
Verification of the normalization and overlap-matching core of the
gitgsearch repository.

Shallow embeddings, translated from the Python sources:

* `scripts/cross_reference.py`: `parse_year_range`, `year_to_academic_year`,
  `find_overlaps_for_coach`.
* `scripts/normalize.py`: `clean_school_name`, `build_reverse_alias_map`,
  `fuzzy_match`, the `SchoolNormalizer` class (state and `normalize`,
  `is_nfl_team` methods).
* The string-similarity ratio of Python's `difflib.SequenceMatcher`
  (constructed with `isjunk=None`, `autojunk=True`), on which `fuzzy_match`
  relies: `find_longest_match` (inner dynamic-programming loop plus the two
  extension phases) and the total match count behind `ratio()`.

Strings are modelled as `String`/`List Char`; Python is ASCII here, so
per-character `Char.toUpper`/`Char.toLower` model `str.upper`/`str.lower`.
Python dicts are modelled as association lists with insertion-order update
(`dinsert`), sets as lists queried by membership, and floats as `ℚ`
(the ratio `2*M/T` is an exact rational of small height, so equalities and
inequalities of the rational model agree with the float computation).
-/

namespace GitgSearch

/-! ## Python string primitives -/

/-- The characters Python's `str.strip` and the regex class `\s` treat as
whitespace (ASCII range). -/
def isPySpace (c : Char) : Bool :=
  c == ' ' || c == '\t' || c == '\n' || c == '\r' || c == '\x0b' || c == '\x0c'

/-- Python `str.strip()`: drop leading and trailing whitespace. -/
def pyStrip (cs : List Char) : List Char :=
  ((cs.dropWhile isPySpace).reverse.dropWhile isPySpace).reverse

/-- Python `str.lower()` (ASCII). -/
def pyLower (cs : List Char) : List Char :=
  cs.map Char.toLower

/-- Python `str.upper()` (ASCII). -/
def pyUpper (cs : List Char) : List Char :=
  cs.map Char.toUpper

/-- `str.upper()` on a `String`. -/
def strUpper (s : String) : String :=
  ⟨pyUpper s.data⟩

/-- Python's substring test `needle in hay`. -/
def listContains (hay needle : List Char) : Bool :=
  match hay with
  | [] => needle.isEmpty
  | _ :: t => needle.isPrefixOf hay || listContains t needle

/-- `sub in s` for `String`s. -/
def strContains (s sub : String) : Bool :=
  listContains s.data sub.data

/-- Python `s.startswith(pre)` (character-wise prefix test). -/
def pyStartsWith (s pre : String) : Bool :=
  pre.data.isPrefixOf s.data

/-! ## `parse_year_range` (scripts/cross_reference.py, lines 52-111)

`re.match` anchors at the start of the string only, so each pattern is a
prefix matcher.  The three patterns `\d{4}\s*-\s*present`,
`\d{4}\s*-\s*\d{4}` and `\d{4}` are deterministic (no backtracking can
change the outcome), so they are embedded as straight-line prefix parsers. -/

/-- Value of an ASCII digit character. -/
def digitVal (c : Char) : Nat :=
  c.toNat - '0'.toNat

/-- Prefix matcher for `(\d{4})`: four digit characters, returning their
value and the rest of the input. -/
def match4 : List Char → Option (Nat × List Char)
  | c1 :: c2 :: c3 :: c4 :: rest =>
    if c1.isDigit && c2.isDigit && c3.isDigit && c4.isDigit then
      some (((digitVal c1 * 10 + digitVal c2) * 10 + digitVal c3) * 10 + digitVal c4, rest)
    else none
  | _ => none

/-- Greedy `\s*`. -/
def skipWs (cs : List Char) : List Char :=
  cs.dropWhile isPySpace

/-- Literal `-`. -/
def matchDash : List Char → Option (List Char)
  | '-' :: rest => some rest
  | _ => none

/-- `re.match(r"(\d{4})\s*-\s*present", s)`, returning the year. -/
def matchPresentRange (cs : List Char) : Option Nat :=
  match match4 cs with
  | some (y, rest) =>
    match matchDash (skipWs rest) with
    | some rest2 => if ("present".data).isPrefixOf (skipWs rest2) then some y else none
    | none => none
  | none => none

/-- `re.match(r"(\d{4})\s*-\s*(\d{4})", s)`, returning both years. -/
def matchYearRange (cs : List Char) : Option (Nat × Nat) :=
  match match4 cs with
  | some (y1, rest) =>
    match matchDash (skipWs rest) with
    | some rest2 =>
      match match4 (skipWs rest2) with
      | some (y2, _) => some (y1, y2)
      | none => none
    | none => none
  | none => none

/-- `re.match(r"(\d{4})", s)`. -/
def matchSingle (cs : List Char) : Option Nat :=
  match match4 cs with
  | some (y, _) => some y
  | none => none

/-- Python `range(s, e)` as an ascending list. -/
def pyRange (s e : Nat) : List Nat :=
  List.range' s (e - s)

/-- `parse_year_range(years_str, current_year)`.  The Python default
`current_year=None` (replaced by `datetime.now().year`) is outside the
model; every call embedded here passes the year explicitly.  The function
is total: the embedding returns `[]` on every non-matching input and can
raise nothing. -/
def parse_year_range (years_str : String) (current_year : Nat) : List Nat :=
  let cs := pyLower (pyStrip years_str.data)
  if listContains cs "present".data then
    match matchPresentRange cs with
    | some start_year => pyRange start_year current_year
    | none => []
  else
    match matchYearRange cs with
    | some (start_year, end_year) => pyRange start_year (end_year + 1)
    | none =>
      match matchSingle cs with
      | some y => [y]
      | none => []

/-- The four decimal digit characters of a year.  For `1000 ≤ y ≤ 9999`
this is exactly the character sequence Python's `str(y)` / `f"{y}"`
produces. -/
def fourDigits (y : Nat) : List Char :=
  [Nat.digitChar (y / 1000 % 10), Nat.digitChar (y / 100 % 10),
   Nat.digitChar (y / 10 % 10), Nat.digitChar (y % 10)]

/-- `year_to_academic_year(year)` = `f"{year}-{year + 1}"`
(scripts/cross_reference.py, lines 114-124). -/
def year_to_academic_year (year : Nat) : String :=
  toString year ++ "-" ++ toString (year + 1)

/-! ## `clean_school_name` and the alias table (scripts/normalize.py) -/

/-- One step of `re.sub(r"\s+", " ", s)`: the flag records whether the
previous character was whitespace (so a run collapses to one space). -/
def collapseWsAux : Bool → List Char → List Char
  | _, [] => []
  | prevSpace, c :: rest =>
    if isPySpace c then
      if prevSpace then collapseWsAux true rest else ' ' :: collapseWsAux true rest
    else c :: collapseWsAux false rest

/-- `re.sub(r"\s+", " ", s)`: collapse every whitespace run to one space. -/
def collapseWs (cs : List Char) : List Char :=
  collapseWsAux false cs

/-- `clean_school_name(name)` (scripts/normalize.py, lines 21-32):
uppercase, strip, collapse internal whitespace runs. -/
def clean_school_name (name : String) : String :=
  ⟨collapseWs (pyStrip (pyUpper name.data))⟩

/-- Python dict assignment `m[k] = v` on an association list: overwrite in
place if the key exists (keeping its position), else append. -/
def dinsert : List (String × String) → String → String → List (String × String)
  | [], k, v => [(k, v)]
  | (k0, v0) :: rest, k, v =>
    if k0 = k then (k, v) :: rest else (k0, v0) :: dinsert rest k v

/-- Python dict lookup `m.get(k)` on an association list. -/
def dictLookup (m : List (String × String)) (k : String) : Option String :=
  (m.find? (fun e => e.1 == k)).map (fun e => e.2)

/-- `build_reverse_alias_map(aliases)` (scripts/normalize.py, lines 35-52).
The alias table is a JSON object, i.e. an insertion-ordered sequence of
(canonical name, alias list) entries; keys starting with `_` are skipped. -/
def build_reverse_alias_map (aliases : List (String × List String)) : List (String × String) :=
  aliases.foldl
    (fun reverse_map entry =>
      if pyStartsWith entry.1 "_" then reverse_map
      else entry.2.foldl (fun m al => dinsert m (strUpper al) (strUpper entry.1)) reverse_map)
    []

/-- Specification-side description used only to state the last-write-wins
claim about `build_reverse_alias_map`: scanning the alias table from its
last entry backwards, the uppercased canonical name of the first
non-reserved entry whose alias list contains (after uppercasing) the
uppercased alias `A`. -/
def lastWriteWinsSpec (aliases : List (String × List String)) (A : String) : Option String :=
  (aliases.reverse.find?
      (fun e => !pyStartsWith e.1 "_" && e.2.any (fun al => strUpper al == A))).map
    (fun e => strUpper e.1)

/-! ## `difflib.SequenceMatcher(None, a, b).ratio()`

`fuzzy_match` scores candidates with `SequenceMatcher(None, x, y).ratio()`.
With `isjunk=None` the junk set `bjunk` is empty; `autojunk` purges from
`b2j` the elements of `b` that occur more than `len(b)//100 + 1` times when
`len(b) >= 200` ("popular" elements).  `find_longest_match` is the
dynamic-programming loop over `b2j` followed by two extension phases (the
second extends over junk elements only, hence is inert when `bjunk` is
empty, but is embedded faithfully).  `ratio()` is `2*M/T` where `M` is the
total size of the matching blocks and `T = len(a) + len(b)`; the
queue-plus-sort formulation of `get_matching_blocks`, the merging of
adjacent blocks and the trailing zero-size sentinel do not change `M`, so
`M` is computed by the natural recursion. -/

/-- State of the `find_longest_match` main loop: `j2len` (a Python dict of
chain lengths, modelled as a total function that is zero off its keys) and
the current best block `(bi, bj, bs)`. -/
structure FState where
  j2len : Nat → Nat
  bi : Nat
  bj : Nat
  bs : Nat

/-- The inner loop visits `j` exactly when `blo <= j < bhi`, `b[j] == a[i]`
and `a[i]` was not purged from `b2j` as popular. -/
def visitP (a b : List Char) (pop : Char → Bool) (blo bhi i j : Nat) : Prop :=
  blo ≤ j ∧ j < bhi ∧ b.getD j ' ' = a.getD i ' ' ∧ pop (a.getD i ' ') = false

instance (a b : List Char) (pop : Char → Bool) (blo bhi i j : Nat) :
    Decidable (visitP a b pop blo bhi i j) := by
  unfold visitP
  infer_instance

/-- One iteration of the inner loop of `find_longest_match` at column `j`
of row `i`: `k = j2len.get(j-1, 0) + 1` read from the previous row `old`
(`j2len.get(-1, 0)` is `0`, hence the `j = 0` case), stored into the new
row, and the best block updated when `k > bestsize`. -/
def innerStep (a b : List Char) (pop : Char → Bool) (blo bhi i : Nat) (old : Nat → Nat)
    (st : FState) (j : Nat) : FState :=
  if visitP a b pop blo bhi i j then
    let k := if j = 0 then 1 else old (j - 1) + 1
    let st1 : FState := { st with j2len := fun x => if x = j then k else st.j2len x }
    if st.bs < k then { st1 with bi := i + 1 - k, bj := j + 1 - k, bs := k } else st1
  else st

/-- One row `i` of the main loop: Python rebinds `newj2len = {}` and reads
`k` from the previous row, captured here as `st.j2len` before the fold. -/
def rowStep (a b : List Char) (pop : Char → Bool) (blo bhi : Nat) (st : FState) (i : Nat) :
    FState :=
  (List.range' blo (bhi - blo)).foldl (innerStep a b pop blo bhi i st.j2len)
    { st with j2len := fun _ => 0 }

/-- The main loop of `find_longest_match` over rows `alo..ahi-1`, starting
from `besti, bestj, bestsize = alo, blo, 0` and an empty `j2len`. -/
def mainLoop (a b : List Char) (pop : Char → Bool) (alo ahi blo bhi : Nat) : FState :=
  (List.range' alo (ahi - alo)).foldl (rowStep a b pop blo bhi) ⟨fun _ => 0, alo, blo, 0⟩

/-- The two backward extension `while` loops of `find_longest_match`
(`flag = false`: the non-junk phase `not isbjunk(...)`; `flag = true`: the
junk phase).  Structural recursion on `besti`, which each iteration
decrements while `besti > alo`. -/
def extLo (a b : List Char) (bjunk : Char → Bool) (flag : Bool) (alo blo : Nat) :
    Nat → Nat → Nat → Nat × Nat × Nat
  | 0, bj, bs => (0, bj, bs)
  | bi + 1, bj, bs =>
    if alo < bi + 1 ∧ blo < bj ∧ bjunk (b.getD (bj - 1) ' ') = flag ∧
        a.getD bi ' ' = b.getD (bj - 1) ' ' then
      extLo a b bjunk flag alo blo bi (bj - 1) (bs + 1)
    else (bi + 1, bj, bs)

/-- The two forward extension `while` loops of `find_longest_match`.  Each
iteration requires `besti + bestsize < ahi`, so `ahi` steps always suffice;
the first argument is that fuel. -/
def extHi (a b : List Char) (bjunk : Char → Bool) (flag : Bool) (ahi bhi bi bj : Nat) :
    Nat → Nat → Nat
  | 0, bs => bs
  | fuel + 1, bs =>
    if bi + bs < ahi ∧ bj + bs < bhi ∧ bjunk (b.getD (bj + bs) ' ') = flag ∧
        a.getD (bi + bs) ' ' = b.getD (bj + bs) ' ' then
      extHi a b bjunk flag ahi bhi bi bj fuel (bs + 1)
    else bs

/-- One extension phase of `find_longest_match`: the backward `while`
loop, then the forward one, over a block `(besti, bestj, bestsize)`.
`flag = false` is the non-junk phase, `flag = true` the junk phase. -/
def extPhase (a b : List Char) (bjunk : Char → Bool) (flag : Bool)
    (alo ahi blo bhi : Nat) (t : Nat × Nat × Nat) : Nat × Nat × Nat :=
  match extLo a b bjunk flag alo blo t.1 t.2.1 t.2.2 with
  | (bi, bj, bs) => (bi, bj, extHi a b bjunk flag ahi bhi bi bj ahi bs)

/-- `find_longest_match(alo, ahi, blo, bhi)`: the main loop, then the
non-junk extension phase (backward, forward), then the junk extension phase
(backward, forward). -/
def find_longest_match (a b : List Char) (bjunk pop : Char → Bool)
    (alo ahi blo bhi : Nat) : Nat × Nat × Nat :=
  extPhase a b bjunk true alo ahi blo bhi
    (extPhase a b bjunk false alo ahi blo bhi
      ((mainLoop a b pop alo ahi blo bhi).bi, (mainLoop a b pop alo ahi blo bhi).bj,
        (mainLoop a b pop alo ahi blo bhi).bs))

/-- Popular elements purged from `b2j` by `autojunk`: when
`len(b) >= 200`, every element occurring more than `len(b)//100 + 1`
times. -/
def popularB (b : List Char) (c : Char) : Bool :=
  decide (200 ≤ b.length) && decide (b.length / 100 + 1 < b.count c)

/-- Total size `M` of the matching blocks of `get_matching_blocks` on the
window `a[alo:ahi]`, `b[blo:bhi]`: the recursion splits at the longest
match.  Every recursive call strictly decreases
`(ahi - alo) + (bhi - blo)`, so that quantity bounds the fuel needed;
callers pass `len(a) + len(b)`. -/
def matchesTotal (a b : List Char) (bjunk pop : Char → Bool) :
    Nat → Nat → Nat → Nat → Nat → Nat
  | 0, _, _, _, _ => 0
  | fuel + 1, alo, ahi, blo, bhi =>
    match find_longest_match a b bjunk pop alo ahi blo bhi with
    | (i, j, k) =>
      if k = 0 then 0
      else
        matchesTotal a b bjunk pop fuel alo i blo j + k +
          matchesTotal a b bjunk pop fuel (i + k) ahi (j + k) bhi

/-- `sum(triple[-1] for triple in SequenceMatcher(None, a, b).get_matching_blocks())`. -/
def seqMatcherMatches (a b : List Char) : Nat :=
  matchesTotal a b (fun _ => false) (popularB b) (a.length + b.length) 0 a.length 0 b.length

/-- `difflib._calculate_ratio(matches, length)`: `2.0 * matches / length`,
and `1.0` when `length == 0`. -/
def calcRatio (nmatches total : Nat) : ℚ :=
  if total = 0 then 1 else 2 * nmatches / total

/-- `SequenceMatcher(None, a, b).ratio()` as an exact rational. -/
def pyRatio (a b : String) : ℚ :=
  calcRatio (seqMatcherMatches a.data b.data) (a.data.length + b.data.length)

/-- Proof-side characterization of the main loop's `j2len` rows in the
self-comparison case `b = a`, `alo = blo = 0`, `ahi = bhi = h`:
`dpA a pop h r j` is the chain length the row for `a[r]` stores at key `j`
(the length of the longest common suffix of `a[..r]` and `a[..j]` running
through non-popular positions inside the window). -/
def dpA (a : List Char) (pop : Char → Bool) (h : Nat) : Nat → Nat → Nat
  | 0, j => if visitP a a pop 0 h 0 j then 1 else 0
  | r + 1, j =>
    if visitP a a pop 0 h (r + 1) j then
      (if j = 0 then 1 else dpA a pop h r (j - 1) + 1)
    else 0

/-- Proof-side invariant for the general bounds of `find_longest_match`:
the best block lies inside the window `[alo, ahi) × [blo, bhi)` (and a
zero-size best is still the initial `(alo, blo)`). -/
def BestInWindow (alo blo ahi bhi bi bj bs : Nat) : Prop :=
  alo ≤ bi ∧ blo ≤ bj ∧ (bs = 0 → bi = alo ∧ bj = blo) ∧
    (bs ≠ 0 → bi + bs ≤ ahi ∧ bj + bs ≤ bhi)

/-- Proof-side invariant for `j2len` after `n` rows of the main loop:
every chain length is at most `n`, and a nonzero entry at key `jj` lies in
the window and has length at most `jj + 1 - blo`. -/
def J2Bound (blo bhi n : Nat) (f : Nat → Nat) : Prop :=
  ∀ jj, f jj ≤ n ∧ (f jj ≠ 0 → blo ≤ jj ∧ jj < bhi ∧ f jj + blo ≤ jj + 1)

/-- Proof-side invariant of the main loop in the self-comparison case
(`b = a`, window `[0, h) × [0, h)`), inside row `r` with columns `< m`
processed: the new `j2len` row agrees with `dpA`, the best block is on the
diagonal and ends by row `r`, and its size dominates every chain of the
fully processed rows and of the processed part of row `r`. -/
def DiagInv (a : List Char) (pop : Char → Bool) (h r m : Nat) (st : FState) : Prop :=
  (∀ j, st.j2len j = if j < m then dpA a pop h r j else 0) ∧
  st.bi = st.bj ∧ st.bi + st.bs ≤ r + 1 ∧
  (∀ r2, r2 < r → ∀ j2, dpA a pop h r2 j2 ≤ st.bs) ∧
  (∀ j2, j2 < m → dpA a pop h r j2 ≤ st.bs)

/-- Proof-side invariant of the main loop in the self-comparison case
after `n` full rows. -/
def RowsInv (a : List Char) (pop : Char → Bool) (h n : Nat) (st : FState) : Prop :=
  (∀ j, st.j2len j = if n = 0 then 0 else dpA a pop h (n - 1) j) ∧
  st.bi = st.bj ∧ st.bi + st.bs ≤ n ∧
  (∀ r2, r2 < n → ∀ j2, dpA a pop h r2 j2 ≤ st.bs)

/-! ## `fuzzy_match` and the `SchoolNormalizer` (scripts/normalize.py) -/

/-- An entry of the fuzzy-match audit log. -/
structure FuzzyLogEntry where
  original : String
  matched_to : String
  score : ℚ
deriving DecidableEq

/-- `fuzzy_match(name, candidates, threshold)` (scripts/normalize.py,
lines 55-82).  The Python iterates over a set; the embedding takes the
iteration order as a list.  `best_match` starts as `None` and a final
`if best_match:` guard means a best match equal to the empty string (falsy)
is reported as no match. -/
def fuzzy_match (name : String) (candidates : List String) (threshold : ℚ) :
    Option (String × ℚ) :=
  let name_upper := strUpper name
  let best := candidates.foldl
    (fun (acc : Option String × ℚ) candidate =>
      let score := pyRatio name_upper (strUpper candidate)
      if acc.2 < score ∧ threshold ≤ score then (some candidate, score) else acc)
    (none, 0)
  match best.1 with
  | some m => if m = "" then none else some (m, best.2)
  | none => none

/-- The state of a `SchoolNormalizer` (scripts/normalize.py, lines 85-108):
the uppercased canonical-name set, the reverse alias index, and the
fuzzy-match audit log.  (`self.nmdp_db` and `self.aliases` are only read to
build these fields, so they are not carried.) -/
structure SchoolNormalizer where
  nmdp_schools : List String
  reverse_aliases : List (String × String)
  fuzzy_match_log : List FuzzyLogEntry
deriving DecidableEq

/-- `SchoolNormalizer.__init__` with the two JSON files already parsed into
association lists: uppercase the database keys and build the reverse alias
map; the audit log starts empty. -/
def SchoolNormalizer.init (nmdp_db : List (String × List String))
    (aliases : List (String × List String)) : SchoolNormalizer :=
  { nmdp_schools := nmdp_db.map (fun e => strUpper e.1)
    reverse_aliases := build_reverse_alias_map aliases
    fuzzy_match_log := [] }

/-- `SchoolNormalizer.normalize(name, use_fuzzy=False, fuzzy_threshold=0.85)`
(scripts/normalize.py, lines 110-147).  Returns `(normalized_name,
match_type)` together with the normalizer state after the call (the Python
method mutates `self.fuzzy_match_log` in the fuzzy branch). -/
def SchoolNormalizer.normalize (self : SchoolNormalizer) (name : String)
    (use_fuzzy : Bool := false) (fuzzy_threshold : ℚ := 85 / 100) :
    (String × String) × SchoolNormalizer :=
  let cleaned := clean_school_name name
  if cleaned ∈ self.nmdp_schools then ((cleaned, "exact"), self)
  else
    match dictLookup self.reverse_aliases cleaned with
    | some canonical => ((canonical, "alias"), self)
    | none =>
      if use_fuzzy then
        match fuzzy_match cleaned self.nmdp_schools fuzzy_threshold with
        | some (m, score) =>
          ((m, "fuzzy"),
            { self with
                fuzzy_match_log := self.fuzzy_match_log ++ [⟨name, m, score⟩] })
        | none => ((cleaned, "none"), self)
      else ((cleaned, "none"), self)

/-- The NFL franchise nickname list of `is_nfl_team`
(scripts/normalize.py, lines 186-194). -/
def nfl_keywords : List String :=
  ["49ERS", "BEARS", "BENGALS", "BILLS", "BRONCOS", "BROWNS",
   "BUCCANEERS", "CARDINALS", "CHARGERS", "CHIEFS", "COLTS",
   "COMMANDERS", "COWBOYS", "DOLPHINS", "EAGLES", "FALCONS",
   "GIANTS", "JAGUARS", "JETS", "LIONS", "PACKERS", "PANTHERS",
   "PATRIOTS", "RAIDERS", "RAMS", "RAVENS", "SAINTS", "SEAHAWKS",
   "STEELERS", "TEXANS", "TITANS", "VIKINGS",
   "NFL", "NATIONAL FOOTBALL LEAGUE"]

/-- The NFL city list of `is_nfl_team` (scripts/normalize.py,
lines 196-204). -/
def nfl_cities : List String :=
  ["ARIZONA", "ATLANTA", "BALTIMORE", "BUFFALO", "CAROLINA",
   "CHICAGO", "CINCINNATI", "CLEVELAND", "DALLAS", "DENVER",
   "DETROIT", "GREEN BAY", "HOUSTON", "INDIANAPOLIS", "JACKSONVILLE",
   "KANSAS CITY", "LAS VEGAS", "LOS ANGELES", "MIAMI", "MINNESOTA",
   "NEW ENGLAND", "NEW ORLEANS", "NEW YORK", "PHILADELPHIA",
   "PITTSBURGH", "SAN FRANCISCO", "SEATTLE", "TAMPA BAY",
   "TENNESSEE", "WASHINGTON"]

/-- The first loop of `is_nfl_team` (lines 208-213): some nickname occurs
in the uppercased name, and neither "UNIVERSITY" nor "COLLEGE" does (the
guard does not depend on the keyword, so the loop reduces to this
conjunction). -/
def is_nfl_team_keywordHit (name_upper : String) : Bool :=
  nfl_keywords.any (fun k => strContains name_upper k) &&
    !(strContains name_upper "UNIVERSITY") && !(strContains name_upper "COLLEGE")

/-- The second loop of `is_nfl_team` (lines 215-221): the uppercased name
starts with an NFL city and the stripped remainder contains some nickname.
This loop has no UNIVERSITY/COLLEGE guard. -/
def is_nfl_team_cityHit (name_upper : String) : Bool :=
  nfl_cities.any (fun city =>
    pyStartsWith name_upper city &&
      nfl_keywords.any (fun k => strContains ⟨pyStrip (name_upper.data.drop city.data.length)⟩ k))

/-- `SchoolNormalizer.is_nfl_team(name)` (scripts/normalize.py,
lines 179-223); the method reads no instance state. -/
def is_nfl_team (name : String) : Bool :=
  let name_upper := strUpper name
  is_nfl_team_keywordHit name_upper || is_nfl_team_cityHit name_upper

/-! ## `find_overlaps_for_coach` (scripts/cross_reference.py, lines 127-190) -/

/-- One career stint, the fields `find_overlaps_for_coach` reads
(`stint.get("school", "")`, `stint.get("years", "")`,
`stint.get("position", "Unknown")`: a missing key behaves as the default,
which for `school`/`years` is skipped exactly like the empty string). -/
structure CareerStint where
  school : String
  years : String
  position : String
deriving DecidableEq

/-- One emitted overlap record. -/
structure OverlapRecord where
  school : String
  school_original : String
  academic_year : String
  coach_position : String
  match_type : String
deriving DecidableEq

/-- Lookup in the NMDP database dict (school name to academic-year list). -/
def nmdpLookup (db : List (String × List String)) (k : String) : Option (List String) :=
  (db.find? (fun e => e.1 == k)).map (fun e => e.2)

/-- `find_overlaps_for_coach(career_history, nmdp_db, normalizer,
year_range_start, year_range_end)`.  Per stint: skip on missing data, skip
NFL teams, normalize (with the defaults `use_fuzzy=False`, threshold 0.85,
so the normalizer state is unchanged and only the returned pair is used),
skip schools absent from the database, parse the years string with
`year_range_end` as the "present" reference year, filter the seasons to
`year_range_start <= y < year_range_end`, and emit a record for each
surviving season whose academic year is among the school's program
years. -/
def find_overlaps_for_coach (career_history : List CareerStint)
    (nmdp_db : List (String × List String)) (normalizer : SchoolNormalizer)
    (year_range_start : Nat := 2020) (year_range_end : Nat := 2026) :
    List OverlapRecord :=
  career_history.flatMap (fun stint =>
    if stint.school = "" ∨ stint.years = "" then []
    else if is_nfl_team stint.school then []
    else
      match nmdpLookup nmdp_db ((normalizer.normalize stint.school).1).1 with
      | none => []
      | some nmdp_years =>
        ((parse_year_range stint.years year_range_end).filter
            (fun y => decide (year_range_start ≤ y) && decide (y < year_range_end))).filterMap
          (fun year =>
            if year_to_academic_year year ∈ nmdp_years then
              some { school := ((normalizer.normalize stint.school).1).1,
                     school_original := stint.school,
                     academic_year := year_to_academic_year year,
                     coach_position := stint.position,
                     match_type := ((normalizer.normalize stint.school).1).2 }
            else none))

/-! ## Lemmas on characters, digits and Python string primitives -/

theorem present_data : "present".data = ['p', 'r', 'e', 's', 'e', 'n', 't'] := rfl

theorem digitChar_isDigit {d : Nat} (hd : d < 10) : (Nat.digitChar d).isDigit = true := by
  interval_cases d <;> decide

theorem digitVal_digitChar {d : Nat} (hd : d < 10) : digitVal (Nat.digitChar d) = d := by
  interval_cases d <;> decide

theorem toLower_digitChar {d : Nat} (hd : d < 10) :
    (Nat.digitChar d).toLower = Nat.digitChar d := by
  interval_cases d <;> decide

theorem isPySpace_digitChar {d : Nat} (hd : d < 10) : isPySpace (Nat.digitChar d) = false := by
  interval_cases d <;> decide

theorem digitChar_ne_p {d : Nat} (hd : d < 10) : Nat.digitChar d ≠ 'p' := by
  interval_cases d <;> decide

theorem fourDigits_prop {P : Char → Prop} (hP : ∀ d, d < 10 → P (Nat.digitChar d)) (y : Nat) :
    ∀ c ∈ fourDigits y, P c := by
  intro c hc
  simp only [fourDigits, List.mem_cons, List.not_mem_nil, or_false] at hc
  rcases hc with h | h | h | h <;> subst h <;> exact hP _ (Nat.mod_lt _ (by norm_num))

theorem dropWhile_eq_self_of_head {l : List Char} {p : Char → Bool}
    (h : ∀ c ∈ l.head?, p c = false) : l.dropWhile p = l := by
  cases l with
  | nil => rfl
  | cons c t =>
    have hc : p c = false := h c rfl
    simp [List.dropWhile_cons, hc]

theorem pyStrip_eq_self {cs : List Char} (h1 : ∀ c ∈ cs.head?, isPySpace c = false)
    (h2 : ∀ c ∈ cs.reverse.head?, isPySpace c = false) : pyStrip cs = cs := by
  unfold pyStrip
  rw [dropWhile_eq_self_of_head h1, dropWhile_eq_self_of_head h2, List.reverse_reverse]

theorem pyStrip_eq_self_of_no_space {cs : List Char} (h : ∀ c ∈ cs, isPySpace c = false) :
    pyStrip cs = cs := by
  refine pyStrip_eq_self (fun c hc => ?_) (fun c hc => ?_)
  · exact h c (List.mem_of_mem_head? hc)
  · exact h c (List.mem_reverse.mp (List.mem_of_mem_head? hc))

theorem pyLower_append (l1 l2 : List Char) : pyLower (l1 ++ l2) = pyLower l1 ++ pyLower l2 :=
  List.map_append _ _ _

theorem pyLower_fourDigits (y : Nat) : pyLower (fourDigits y) = fourDigits y := by
  simp only [fourDigits, pyLower, List.map_cons, List.map_nil]
  rw [toLower_digitChar (Nat.mod_lt _ (by norm_num)), toLower_digitChar (Nat.mod_lt _ (by norm_num)),
    toLower_digitChar (Nat.mod_lt _ (by norm_num)), toLower_digitChar (Nat.mod_lt _ (by norm_num))]

theorem listContains_eq_false {cs : List Char} (h : ∀ c ∈ cs, c ≠ 'p') :
    listContains cs "present".data = false := by
  induction cs with
  | nil => rfl
  | cons c t ih =>
    have hc : c ≠ 'p' := h c (List.mem_cons_self _ _)
    have ht : listContains t "present".data = false := ih (fun x hx => h x (List.mem_cons_of_mem _ hx))
    rw [listContains, ht, present_data]
    have : (['p', 'r', 'e', 's', 'e', 'n', 't'] : List Char).isPrefixOf (c :: t) = false := by
      rw [List.isPrefixOf]
      have : ('p' == c) = false := by
        simp only [beq_eq_false_iff_ne, ne_eq]
        exact fun hcp => hc hcp.symm
      rw [this, Bool.false_and]
    rw [this, Bool.false_or]

theorem listContains_of_isPrefixOf {n ys : List Char} (xs : List Char)
    (h : n.isPrefixOf ys = true) : listContains (xs ++ ys) n = true := by
  induction xs with
  | nil =>
    cases ys with
    | nil =>
      cases n with
      | nil => rfl
      | cons a t => simp [List.isPrefixOf] at h
    | cons y t => simp [listContains, h]
  | cons x xt ih => simp [listContains, ih]

theorem match4_fourDigits {y : Nat} (hy : y ≤ 9999) (r : List Char) :
    match4 (fourDigits y ++ r) = some (y, r) := by
  have h0 : y / 1000 % 10 < 10 := Nat.mod_lt _ (by norm_num)
  have h1 : y / 100 % 10 < 10 := Nat.mod_lt _ (by norm_num)
  have h2 : y / 10 % 10 < 10 := Nat.mod_lt _ (by norm_num)
  have h3 : y % 10 < 10 := Nat.mod_lt _ (by norm_num)
  simp only [fourDigits, List.cons_append, List.nil_append, match4,
    digitChar_isDigit h0, digitChar_isDigit h1, digitChar_isDigit h2, digitChar_isDigit h3,
    Bool.and_self, if_true, digitVal_digitChar h0, digitVal_digitChar h1,
    digitVal_digitChar h2, digitVal_digitChar h3]
  congr 1
  congr 1
  omega

theorem skipWs_replicate (n : Nat) (l : List Char) :
    skipWs (List.replicate n ' ' ++ l) = skipWs l := by
  induction n with
  | zero => rfl
  | succ m ih =>
    rw [List.replicate_succ, List.cons_append]
    simpa [skipWs, List.dropWhile_cons] using ih

theorem skipWs_cons_of_not {c : Char} (l : List Char) (h : isPySpace c = false) :
    skipWs (c :: l) = c :: l := by
  simp [skipWs, List.dropWhile_cons, h]

theorem fourDigits_no_space (y : Nat) : ∀ c ∈ fourDigits y, isPySpace c = false :=
  fourDigits_prop (fun _ hd => isPySpace_digitChar hd) y

theorem fourDigits_ne_p (y : Nat) : ∀ c ∈ fourDigits y, c ≠ 'p' :=
  fourDigits_prop (fun _ hd => digitChar_ne_p hd) y

theorem fourDigits_head (y : Nat) :
    fourDigits y = Nat.digitChar (y / 1000 % 10) :: (fourDigits y).tail := rfl

theorem skipWs_fourDigits (y : Nat) : skipWs (fourDigits y) = fourDigits y := by
  rw [fourDigits_head y, skipWs_cons_of_not _ (isPySpace_digitChar (Nat.mod_lt _ (by norm_num)))]

theorem match4_fourDigits_nil {y : Nat} (hy : y ≤ 9999) :
    match4 (fourDigits y) = some (y, []) := by
  have h := match4_fourDigits hy ([] : List Char)
  rwa [List.append_nil] at h

/-- Core computation shared by the `YYYY-YYYY` claims: on the exact string
`f"{Y1}-{Y2}"` the parser takes the standard-range branch and returns
`range(Y1, Y2 + 1)`. -/
theorem parse_year_range_pair_eq {Y1 Y2 : Nat} (h1 : Y1 ≤ 9999) (h2 : Y2 ≤ 9999) (C : Nat) :
    parse_year_range ⟨fourDigits Y1 ++ '-' :: fourDigits Y2⟩ C =
      List.range' Y1 (Y2 + 1 - Y1) := by
  have hall : ∀ c ∈ fourDigits Y1 ++ '-' :: fourDigits Y2, isPySpace c = false := by
    intro c hc
    rcases List.mem_append.mp hc with h | h
    · exact fourDigits_no_space _ _ h
    · rcases List.mem_cons.mp h with h | h
      · subst h; decide
      · exact fourDigits_no_space _ _ h
  have hnp : ∀ c ∈ fourDigits Y1 ++ '-' :: fourDigits Y2, c ≠ 'p' := by
    intro c hc
    rcases List.mem_append.mp hc with h | h
    · exact fourDigits_ne_p _ _ h
    · rcases List.mem_cons.mp h with h | h
      · subst h; decide
      · exact fourDigits_ne_p _ _ h
  have hdata : (⟨fourDigits Y1 ++ '-' :: fourDigits Y2⟩ : String).data =
      fourDigits Y1 ++ '-' :: fourDigits Y2 := rfl
  have hlow : pyLower (fourDigits Y1 ++ '-' :: fourDigits Y2) =
      fourDigits Y1 ++ '-' :: fourDigits Y2 := by
    rw [pyLower_append, pyLower_fourDigits]
    have : pyLower ('-' :: fourDigits Y2) = '-' :: pyLower (fourDigits Y2) := rfl
    rw [this, pyLower_fourDigits]
  have hm : matchYearRange (fourDigits Y1 ++ '-' :: fourDigits Y2) = some (Y1, Y2) := by
    rw [matchYearRange, match4_fourDigits h1]
    simp only [skipWs_cons_of_not _ (by decide : isPySpace '-' = false), matchDash,
      skipWs_fourDigits, match4_fourDigits_nil h2]
  rw [parse_year_range, hdata, pyStrip_eq_self_of_no_space hall, hlow,
    listContains_eq_false hnp]
  simp only [Bool.false_eq_true, if_false, hm]
  rfl

/-- Core computation shared by the `YYYY-present` claim: on
`f"{Y}"` + spaces + `-` + spaces + any casing of `present`, the parser
takes the present branch and returns `range(Y, C)`. -/
theorem toLower_eq_self_of_isPySpace {c : Char} (h : isPySpace c = true) : c.toLower = c := by
  have hor : c = ' ' ∨ c = '\t' ∨ c = '\n' ∨ c = '\r' ∨ c = '\x0b' ∨ c = '\x0c' := by
    simpa [isPySpace, or_assoc] using h
  rcases hor with rfl | rfl | rfl | rfl | rfl | rfl <;> decide

theorem parse_year_range_present_eq {Y : Nat} (hY : Y ≤ 9999) (C n1 n2 : Nat) {p : List Char}
    (hp : pyLower p = "present".data) :
    parse_year_range
        ⟨fourDigits Y ++ (List.replicate n1 ' ' ++ '-' :: (List.replicate n2 ' ' ++ p))⟩ C =
      List.range' Y (C - Y) := by
  have hp' : List.map Char.toLower p = "present".data := hp
  have hrev : ∃ c rest, p.reverse = c :: rest ∧ c.toLower = 't' := by
    have hmr : List.map Char.toLower p.reverse = ('t' : Char) :: ['n', 'e', 's', 'e', 'r', 'p'] := by
      rw [List.map_reverse, hp']
      rfl
    cases hpr : p.reverse with
    | nil => rw [hpr] at hmr; simp at hmr
    | cons c rest =>
      rw [hpr] at hmr
      refine ⟨c, rest, rfl, ?_⟩
      have := congrArg List.head? hmr
      simpa using this
  obtain ⟨c, rest, hc, hct⟩ := hrev
  have hcns : isPySpace c = false := by
    cases hsp : isPySpace c with
    | false => rfl
    | true =>
      exfalso
      have heq : c = 't' := by rw [← toLower_eq_self_of_isPySpace hsp, hct]
      rw [heq] at hsp
      exact absurd hsp (by decide)
  set L := fourDigits Y ++ (List.replicate n1 ' ' ++ '-' :: (List.replicate n2 ' ' ++ p)) with hL
  have hdata : (⟨L⟩ : String).data = L := rfl
  have hstrip : pyStrip L = L := by
    refine pyStrip_eq_self (fun x hx => ?_) (fun x hx => ?_)
    · rw [hL, fourDigits_head Y] at hx
      simp only [List.cons_append, List.head?_cons, Option.mem_def, Option.some_inj] at hx
      subst hx
      exact isPySpace_digitChar (Nat.mod_lt _ (by norm_num))
    · rw [hL] at hx
      simp only [List.reverse_append, List.reverse_cons, List.append_assoc] at hx
      rw [hc] at hx
      simp only [List.cons_append, List.head?_cons, Option.mem_def, Option.some_inj] at hx
      subst hx
      exact hcns
  have hlow : pyLower L = fourDigits Y ++
      (List.replicate n1 ' ' ++ '-' :: (List.replicate n2 ' ' ++ "present".data)) := by
    rw [hL]
    rw [pyLower_append, pyLower_fourDigits]
    congr 1
    rw [pyLower_append]
    have hr1 : pyLower (List.replicate n1 ' ') = List.replicate n1 ' ' := by
      simp [pyLower, List.map_replicate]
    have hr2 : pyLower ('-' :: (List.replicate n2 ' ' ++ p)) =
        '-' :: (List.replicate n2 ' ' ++ "present".data) := by
      show ('-' : Char).toLower :: pyLower (List.replicate n2 ' ' ++ p) = _
      rw [pyLower_append, hp]
      simp [pyLower, List.map_replicate]
    rw [hr1, hr2]
  have hcont : listContains
      (fourDigits Y ++ (List.replicate n1 ' ' ++ '-' :: (List.replicate n2 ' ' ++ "present".data)))
      "present".data = true := by
    have hassoc : fourDigits Y ++
        (List.replicate n1 ' ' ++ '-' :: (List.replicate n2 ' ' ++ "present".data)) =
        (fourDigits Y ++ (List.replicate n1 ' ' ++ '-' :: List.replicate n2 ' ')) ++
          "present".data := by
      simp [List.append_assoc, List.cons_append]
    rw [hassoc]
    exact listContains_of_isPrefixOf _ (List.isPrefixOf_iff_prefix.mpr (List.prefix_refl _))
  have hm : matchPresentRange (fourDigits Y ++
      (List.replicate n1 ' ' ++ '-' :: (List.replicate n2 ' ' ++ "present".data))) = some Y := by
    rw [matchPresentRange, match4_fourDigits hY]
    simp only [skipWs_replicate, skipWs_cons_of_not _ (by decide : isPySpace '-' = false),
      matchDash]
    have hskip : skipWs "present".data = "present".data := by
      rw [present_data]
      exact skipWs_cons_of_not _ (by decide)
    simp only [hskip, List.isPrefixOf_iff_prefix.mpr (List.prefix_refl "present".data), if_true]
  rw [parse_year_range, hdata, hstrip, hlow, hcont]
  simp only [if_true, hm]
  rfl

/-! ## Claim theorems for `parse_year_range` -/

/-- C2: for all four-digit years `Y1 ≤ Y2` and every current year `C`,
`parse_year_range(f"{Y1}-{Y2}", C)` returns the ascending inclusive list
`[Y1, Y1+1, ..., Y2]`, containing both endpoints. -/
theorem parse_year_range_inclusive_range (Y1 Y2 C : Nat)
    (hlo1 : 1000 ≤ Y1) (hhi1 : Y1 ≤ 9999) (hlo2 : 1000 ≤ Y2) (hhi2 : Y2 ≤ 9999)
    (hle : Y1 ≤ Y2) :
    parse_year_range ⟨fourDigits Y1 ++ '-' :: fourDigits Y2⟩ C =
        List.range' Y1 (Y2 + 1 - Y1) ∧
      (∀ z, z ∈ parse_year_range ⟨fourDigits Y1 ++ '-' :: fourDigits Y2⟩ C ↔
        Y1 ≤ z ∧ z ≤ Y2) ∧
      List.Pairwise (· < ·) (parse_year_range ⟨fourDigits Y1 ++ '-' :: fourDigits Y2⟩ C) := by
  have he := parse_year_range_pair_eq hhi1 hhi2 C
  refine ⟨he, fun z => ?_, ?_⟩
  · rw [he, List.mem_range'_1]
    omega
  · rw [he]
    exact List.pairwise_lt_range' _ _

/-- C2 witness: `parse_year_range("2020-2022")` is `[2020, 2021, 2022]`. -/
theorem parse_year_range_inclusive_range_witness :
    parse_year_range ⟨fourDigits 2020 ++ '-' :: fourDigits 2022⟩ 2026 =
        [2020, 2021, 2022] ∧
      2021 ∈ parse_year_range ⟨fourDigits 2020 ++ '-' :: fourDigits 2022⟩ 2026 := by
  have h := parse_year_range_inclusive_range 2020 2022 2026
    (by norm_num) (by norm_num) (by norm_num) (by norm_num) (by norm_num)
  refine ⟨?_, (h.2.1 2021).mpr (by norm_num)⟩
  rw [h.1]
  rfl

/-- C3: for every four-digit year `Y` and current year `C`,
`parse_year_range(f"{Y}-present", C)` returns `[Y, ..., C-1]` when `Y < C`
and `[]` when `Y ≥ C`; `present` matches in any casing and any number of
spaces is tolerated around the dash. -/
theorem parse_year_range_present_range (Y C n1 n2 : Nat) (p : List Char)
    (hlo : 1000 ≤ Y) (hhi : Y ≤ 9999) (hp : pyLower p = "present".data) :
    parse_year_range
          ⟨fourDigits Y ++ (List.replicate n1 ' ' ++ '-' :: (List.replicate n2 ' ' ++ p))⟩ C =
        List.range' Y (C - Y) ∧
      (C ≤ Y →
        parse_year_range
          ⟨fourDigits Y ++ (List.replicate n1 ' ' ++ '-' :: (List.replicate n2 ' ' ++ p))⟩ C = []) ∧
      (∀ z, z ∈ parse_year_range
          ⟨fourDigits Y ++ (List.replicate n1 ' ' ++ '-' :: (List.replicate n2 ' ' ++ p))⟩ C ↔
        Y ≤ z ∧ z < C) := by
  have he := parse_year_range_present_eq hhi C n1 n2 hp
  refine ⟨he, fun hge => ?_, fun z => ?_⟩
  · rw [he]
    have : C - Y = 0 := by omega
    rw [this]
    rfl
  · rw [he, List.mem_range'_1]
    omega

/-- C3 witness: `parse_year_range("2024 - Present", 2026)` is
`[2024, 2025]`, and `parse_year_range("2026-present", 2026)` is `[]`. -/
theorem parse_year_range_present_range_witness :
    parse_year_range
        ⟨fourDigits 2024 ++ (List.replicate 1 ' ' ++ '-' ::
          (List.replicate 1 ' ' ++ ['P', 'r', 'e', 's', 'e', 'n', 't']))⟩ 2026 =
        [2024, 2025] ∧
      parse_year_range
        ⟨fourDigits 2026 ++ (List.replicate 0 ' ' ++ '-' ::
          (List.replicate 0 ' ' ++ ['p', 'r', 'e', 's', 'e', 'n', 't']))⟩ 2026 = [] := by
  constructor
  · have h := parse_year_range_present_range 2024 2026 1 1
      ['P', 'r', 'e', 's', 'e', 'n', 't'] (by norm_num) (by norm_num) (by decide)
    rw [h.1]
    rfl
  · have h := parse_year_range_present_range 2026 2026 0 0
      ['p', 'r', 'e', 's', 'e', 'n', 't'] (by norm_num) (by norm_num) (by decide)
    exact h.2.1 (by norm_num)

/-- C10: for four-digit years with `Y1 > Y2`, `parse_year_range(f"{Y1}-{Y2}")`
returns the empty list (a reversed range degrades to no seasons). -/
theorem parse_year_range_reversed_empty {Y1 Y2 : Nat} (C : Nat)
    (hlo1 : 1000 ≤ Y1) (hhi1 : Y1 ≤ 9999) (hlo2 : 1000 ≤ Y2) (hhi2 : Y2 ≤ 9999)
    (hgt : Y2 < Y1) :
    parse_year_range ⟨fourDigits Y1 ++ '-' :: fourDigits Y2⟩ C = [] := by
  rw [parse_year_range_pair_eq hhi1 hhi2 C]
  have : Y2 + 1 - Y1 = 0 := by omega
  rw [this]
  rfl

/-- C10 witness: `parse_year_range("2022-2020")` is `[]`. -/
theorem parse_year_range_reversed_empty_witness :
    parse_year_range ⟨fourDigits 2022 ++ '-' :: fourDigits 2020⟩ 2026 = [] :=
  parse_year_range_reversed_empty 2026 (by norm_num) (by norm_num) (by norm_num)
    (by norm_num) (by norm_num)

/-- C8: `parse_year_range` is total (the embedding returns a value on every
string; there is no raising path), and on any input matching none of the
three anchored patterns it returns `[]` — in particular on `"invalid"`,
`""` and `"twenty-twenty"`. -/
theorem parse_year_range_nonmatching_empty (C : Nat) :
    (∀ s : String,
        matchPresentRange (pyLower (pyStrip s.data)) = none →
        matchYearRange (pyLower (pyStrip s.data)) = none →
        matchSingle (pyLower (pyStrip s.data)) = none →
        parse_year_range s C = []) ∧
      parse_year_range "invalid" C = [] ∧
      parse_year_range "" C = [] ∧
      parse_year_range "twenty-twenty" C = [] := by
  refine ⟨fun s h1 h2 h3 => ?_, rfl, rfl, rfl⟩
  rw [parse_year_range]
  cases hc : listContains (pyLower (pyStrip s.data)) "present".data
  · simp [h2, h3]
  · simp [h1]

/-- C8 witness: the general part applied to `"invalid"` at `C = 2026`,
with all three matcher hypotheses discharged by evaluation. -/
theorem parse_year_range_nonmatching_empty_witness :
    parse_year_range "invalid" 2026 = [] :=
  (parse_year_range_nonmatching_empty 2026).1 "invalid" rfl rfl rfl

/-! ## Claim theorems for the normalizer priority and frame -/

/-- C5: when the cleaned name is both in the canonical set and a key of the
reverse alias index (even one mapping to a different canonical name),
`normalize` returns the cleaned name itself with match type `"exact"` and
an unchanged normalizer: the exact check strictly precedes the alias check
and no lower-priority check runs. -/
theorem normalize_exact_priority (nz : SchoolNormalizer) (name : String)
    (use_fuzzy : Bool) (thr : ℚ) (c : String)
    (hmem : clean_school_name name ∈ nz.nmdp_schools)
    (halias : dictLookup nz.reverse_aliases (clean_school_name name) = some c)
    (hne : c ≠ clean_school_name name) :
    nz.normalize name use_fuzzy thr = ((clean_school_name name, "exact"), nz) := by
  rw [SchoolNormalizer.normalize, if_pos hmem]

/-- C5 witness: a normalizer whose canonical set contains `"ALPHA"` while
the alias index maps `"ALPHA"` to the different canonical `"BETA"`;
`normalize("alpha", use_fuzzy=True)` still returns `("ALPHA", "exact")`. -/
theorem normalize_exact_priority_witness :
    SchoolNormalizer.normalize ⟨["ALPHA"], [("ALPHA", "BETA")], []⟩ "alpha" true (17 / 20) =
      (("ALPHA", "exact"), ⟨["ALPHA"], [("ALPHA", "BETA")], []⟩) := by
  have h := normalize_exact_priority ⟨["ALPHA"], [("ALPHA", "BETA")], []⟩ "alpha" true
    (17 / 20) "BETA" (by decide) (by decide) (by decide)
  exact h

/-- C9: `normalize` changes no normalizer state except possibly appending
one entry to `fuzzy_match_log`, and whenever `use_fuzzy` is false or the
returned match type is not `"fuzzy"`, the state is completely unchanged. -/
theorem normalize_frame (nz : SchoolNormalizer) (name : String)
    (use_fuzzy : Bool) (thr : ℚ) :
    ((nz.normalize name use_fuzzy thr).2.nmdp_schools = nz.nmdp_schools ∧
      (nz.normalize name use_fuzzy thr).2.reverse_aliases = nz.reverse_aliases) ∧
    ((nz.normalize name use_fuzzy thr).2.fuzzy_match_log = nz.fuzzy_match_log ∨
      ∃ e, (nz.normalize name use_fuzzy thr).2.fuzzy_match_log =
        nz.fuzzy_match_log ++ [e]) ∧
    (use_fuzzy = false ∨ (nz.normalize name use_fuzzy thr).1.2 ≠ "fuzzy" →
      (nz.normalize name use_fuzzy thr).2 = nz) := by
  rw [SchoolNormalizer.normalize]
  by_cases h1 : clean_school_name name ∈ nz.nmdp_schools
  · simp [h1]
  · rw [if_neg h1]
    cases h2 : dictLookup nz.reverse_aliases (clean_school_name name) with
    | some canonical => simp
    | none =>
      cases use_fuzzy with
      | false => simp
      | true =>
        cases h3 : fuzzy_match (clean_school_name name) nz.nmdp_schools thr with
        | none => simp
        | some ms =>
          obtain ⟨m, score⟩ := ms
          refine ⟨⟨rfl, rfl⟩, Or.inr ⟨⟨name, m, score⟩, rfl⟩, ?_⟩
          rintro (h | h)
          · exact absurd h (by simp)
          · exact absurd rfl h

/-- C9 witness: the frame theorem at a concrete normalizer and a
non-matching name with `use_fuzzy = false`, discharging the implication's
hypothesis: the state is unchanged. -/
theorem normalize_frame_witness :
    (SchoolNormalizer.normalize ⟨["ALPHA"], [], []⟩ "zeta" false (17 / 20)).2 =
      (⟨["ALPHA"], [], []⟩ : SchoolNormalizer) :=
  (normalize_frame ⟨["ALPHA"], [], []⟩ "zeta" false (17 / 20)).2.2 (Or.inl rfl)

/-! ## Claim theorem for the reverse alias index -/

theorem dictLookup_cons (k0 v0 x : String) (rest : List (String × String)) :
    dictLookup ((k0, v0) :: rest) x = if k0 = x then some v0 else dictLookup rest x := by
  by_cases h : k0 = x
  · subst h; simp [dictLookup, List.find?]
  · have hb : (k0 == x) = false := by simpa using h
    simp [dictLookup, List.find?, hb, h]

theorem dictLookup_dinsert (m : List (String × String)) (k v x : String) :
    dictLookup (dinsert m k v) x = if x = k then some v else dictLookup m x := by
  induction m with
  | nil =>
    rw [dinsert, dictLookup_cons]
    by_cases hx : x = k
    · rw [if_pos hx.symm, if_pos hx]
    · rw [if_neg (fun h => hx h.symm), if_neg hx]
  | cons e rest ih =>
    obtain ⟨k0, v0⟩ := e
    rw [dinsert]
    by_cases hk : k0 = k
    · subst hk
      rw [if_pos rfl, dictLookup_cons, dictLookup_cons]
      by_cases hx : x = k0
      · rw [if_pos hx.symm, if_pos hx]
      · rw [if_neg (fun h => hx h.symm), if_neg hx, if_neg (fun h => hx h.symm)]
    · rw [if_neg hk, dictLookup_cons, dictLookup_cons]
      by_cases hx : k0 = x
      · have hxk : ¬x = k := fun h => hk (hx.trans h)
        rw [if_pos hx, if_neg hxk, if_pos hx]
      · rw [if_neg hx, if_neg hx, ih]

theorem dictLookup_alias_fold (al : List String) (v : String)
    (m : List (String × String)) (A : String) :
    dictLookup (al.foldl (fun m2 a => dinsert m2 (strUpper a) v) m) A =
      if al.any (fun a => strUpper a == A) then some v else dictLookup m A := by
  induction al generalizing m with
  | nil => simp
  | cons a rest ih =>
    rw [List.foldl_cons, ih]
    cases hrest : rest.any (fun a2 => strUpper a2 == A) with
    | true => simp [List.any_cons, hrest]
    | false =>
      rw [dictLookup_dinsert]
      by_cases hA : A = strUpper a
      · simp [List.any_cons, hrest, hA, if_pos rfl, beq_iff_eq]
      · have : (strUpper a == A) = false := by
          simp [beq_iff_eq]
          exact fun h => hA h.symm
        simp [List.any_cons, hrest, this, if_neg hA]

/-- The fold of `build_reverse_alias_map` over a table suffix, from an
arbitrary accumulated dict: the result of a lookup is the last matching
entry of the suffix, or else the lookup in the accumulator. -/
theorem dictLookup_build_fold (t : List (String × List String))
    (m : List (String × String)) (A : String) :
    dictLookup
        (t.foldl
          (fun reverse_map entry =>
            if pyStartsWith entry.1 "_" then reverse_map
            else entry.2.foldl (fun m2 al => dinsert m2 (strUpper al) (strUpper entry.1))
              reverse_map)
          m) A =
      ((t.reverse.find?
          (fun e => !pyStartsWith e.1 "_" && e.2.any (fun al => strUpper al == A))).map
        (fun e => strUpper e.1)).or (dictLookup m A) := by
  induction t generalizing m with
  | nil => simp
  | cons e rest ih =>
    rw [List.foldl_cons, ih, List.reverse_cons, List.find?_append]
    cases hfind : rest.reverse.find?
        (fun e2 => !pyStartsWith e2.1 "_" && e2.2.any (fun al => strUpper al == A)) with
    | some e2 => simp [hfind]
    | none =>
      simp only [hfind, Option.none_or, Option.map, Option.or]
      cases hu : pyStartsWith e.1 "_" with
      | true => simp [List.find?, hu]
      | false =>
        rw [if_neg (by simp [hu])]
        rw [dictLookup_alias_fold]
        cases hany : e.2.any (fun al => strUpper al == A) with
        | true => simp [List.find?, hu, hany]
        | false => simp [List.find?, hu, hany]

/-- C6: looking up any uppercased alias `A` in the reverse index built by
`build_reverse_alias_map` yields the uppercased canonical name of the
*last* entry of the table (in iteration order) whose alias list contains
`A` after uppercasing — later entries silently win — and entries whose key
starts with `"_"` (such as `"_comment"`) contribute nothing. -/
theorem build_reverse_alias_map_last_write_wins
    (aliases : List (String × List String)) (A : String) :
    dictLookup (build_reverse_alias_map aliases) A = lastWriteWinsSpec aliases A := by
  rw [build_reverse_alias_map, dictLookup_build_fold, lastWriteWinsSpec]
  simp [dictLookup]

/-! ## Claim theorems for the NFL filter -/

/-- C1 counterexample: the claim states
`is_nfl_team("Dallas Baptist University Cowboys") == False`, but the code
returns `True`: the name starts with the NFL city `"DALLAS"` and its
remainder contains `"COWBOYS"`, and the city-prefix check has no
UNIVERSITY/COLLEGE guard. -/
theorem is_nfl_team_university_counterexample :
    is_nfl_team "Dallas Baptist University Cowboys" = true := by rfl

/-- C1 (amended): `is_nfl_team("Dallas Cowboys") == True`, but
`is_nfl_team("Dallas Baptist University Cowboys") == True` as well; the
UNIVERSITY/COLLEGE guard suppresses only the nickname-containment check,
so for any name containing "UNIVERSITY" or "COLLEGE" (uppercased) the
classification equals the unguarded city-prefix check alone. -/
theorem is_nfl_team_university_guard :
    is_nfl_team "Dallas Cowboys" = true ∧
    is_nfl_team "Dallas Baptist University Cowboys" = true ∧
    (∀ name : String,
      (strContains (strUpper name) "UNIVERSITY" = true ∨
        strContains (strUpper name) "COLLEGE" = true) →
      is_nfl_team name = is_nfl_team_cityHit (strUpper name)) := by
  refine ⟨by rfl, by rfl, fun name h => ?_⟩
  rw [is_nfl_team]
  have hk : is_nfl_team_keywordHit (strUpper name) = false := by
    rw [is_nfl_team_keywordHit]
    rcases h with h | h <;> simp [h]
  rw [hk, Bool.false_or]

/-- C1 witness: the amended theorem's guard clause applied to
`"Boston College Eagles"` (no NFL city prefix, hence not NFL despite
containing `"EAGLES"`), and its concrete clauses. -/
theorem is_nfl_team_university_guard_witness :
    is_nfl_team "Boston College Eagles" = false ∧
      is_nfl_team "Dallas Baptist University Cowboys" = true := by
  constructor
  · have h := is_nfl_team_university_guard.2.2 "Boston College Eagles" (Or.inr (by rfl))
    rw [h]
    rfl
  · exact is_nfl_team_university_guard.2.1

/-! ## Claim theorem for the overlap engine's year window -/

/-- C4: every overlap record emitted by `find_overlaps_for_coach` comes
from a season year `y` parsed from some stint's years string (with
`year_range_end` as the "present" reference year) that survives the
half-open filter `year_range_start ≤ y < year_range_end`, and the record's
academic year is the conversion of that `y`. -/
theorem find_overlaps_for_coach_year_window (career : List CareerStint)
    (db : List (String × List String)) (nz : SchoolNormalizer) (ys ye : Nat)
    (rec : OverlapRecord) (hmem : rec ∈ find_overlaps_for_coach career db nz ys ye) :
    ∃ stint ∈ career, ∃ y, y ∈ parse_year_range stint.years ye ∧
      ys ≤ y ∧ y < ye ∧ rec.academic_year = year_to_academic_year y := by
  rw [find_overlaps_for_coach] at hmem
  rw [List.mem_flatMap] at hmem
  obtain ⟨stint, hst, hrec⟩ := hmem
  refine ⟨stint, hst, ?_⟩
  by_cases h1 : stint.school = "" ∨ stint.years = ""
  · rw [if_pos h1] at hrec; exact absurd hrec (List.not_mem_nil _)
  · rw [if_neg h1] at hrec
    by_cases h2 : is_nfl_team stint.school = true
    · rw [if_pos h2] at hrec; exact absurd hrec (List.not_mem_nil _)
    · rw [if_neg h2] at hrec
      cases h3 : nmdpLookup db ((nz.normalize stint.school).1).1 with
      | none => rw [h3] at hrec; exact absurd hrec (List.not_mem_nil _)
      | some nmdp_years =>
        rw [h3] at hrec
        rw [List.mem_filterMap] at hrec
        obtain ⟨y, hy, hif⟩ := hrec
        rw [List.mem_filter] at hy
        obtain ⟨hyp, hyw⟩ := hy
        have hyw2 : ys ≤ y ∧ y < ye := by
          have := hyw
          simp only [Bool.and_eq_true, decide_eq_true_eq] at this
          exact this
        refine ⟨y, hyp, hyw2.1, hyw2.2, ?_⟩
        by_cases h4 : year_to_academic_year y ∈ nmdp_years
        · rw [if_pos h4] at hif
          cases hif
          rfl
        · rw [if_neg h4] at hif
          exact absurd hif (by simp)

/-! ## Claim theorems for the similarity ratio (difflib)

The counterexample below is the classical non-commutativity of the
Ratcliff-Obershelp matcher: `ratio("ab", "bacb") = 2/3` while
`ratio("bacb", "ab") = 1/3` (the longest match `"a"` of the first call
splits the window so that `"b"` can still be matched on the right, while
the longest match `"b"` of the reversed call leaves no room for `"a"`). -/

/-- C7 counterexample: the ratio used by `fuzzy_match` is not symmetric. -/
theorem pyRatio_not_symmetric : pyRatio "ab" "bacb" ≠ pyRatio "bacb" "ab" := by
  have h1 : seqMatcherMatches "ab".data "bacb".data = 2 := by decide
  have h2 : seqMatcherMatches "bacb".data "ab".data = 1 := by decide
  have hl1 : "ab".data.length = 2 := rfl
  have hl2 : "bacb".data.length = 4 := rfl
  simp only [pyRatio, h1, h2, hl1, hl2, calcRatio]
  norm_num

theorem dpA_le (a : List Char) (pop : Char → Bool) (h : Nat) :
    ∀ r j, dpA a pop h r j ≤ r + 1 := by
  intro r
  induction r with
  | zero =>
    intro j
    rw [dpA]
    split <;> omega
  | succ r ih =>
    intro j
    rw [dpA]
    split
    · split
      · omega
      · have := ih (j - 1)
        omega
    · omega

theorem dpA_eq_zero (a : List Char) (pop : Char → Bool) (h : Nat) {r j : Nat}
    (hnv : ¬ visitP a a pop 0 h r j) : dpA a pop h r j = 0 := by
  cases r with
  | zero => rw [dpA, if_neg hnv]
  | succ r => rw [dpA, if_neg hnv]

theorem visitP_of_dpA_pos (a : List Char) (pop : Char → Bool) (h : Nat) {r j : Nat}
    (hp : dpA a pop h r j ≠ 0) : visitP a a pop 0 h r j := by
  by_contra hnv
  exact hp (dpA_eq_zero a pop h hnv)

/-- A chain ending at column `j` transfers to the diagonal cell `(j, j)`
(for `j ≤ r`): the diagonal chain ending at `(j, j)` is at least as long,
because on identical strings the matched characters and their popularity
coincide. -/
theorem dpA_le_diag_col (a : List Char) (pop : Char → Bool) (h : Nat) :
    ∀ r j, j ≤ r → dpA a pop h r j ≤ dpA a pop h j j := by
  intro r
  induction r with
  | zero =>
    intro j hj
    interval_cases j
    exact le_refl _
  | succ r ih =>
    intro j hj
    by_cases hv : visitP a a pop 0 h (r + 1) j
    · rcases Nat.eq_or_lt_of_le hj with heq | hlt
      · subst heq
        exact le_refl _
      · obtain ⟨h0, hjh, hchar, hpop0⟩ := id hv
        have hpop : pop (a.getD j ' ') = false := by rw [hchar]; exact hpop0
        have hvj : visitP a a pop 0 h j j := ⟨Nat.zero_le _, hjh, rfl, hpop⟩
        cases j with
        | zero =>
          have h1 : dpA a pop h (r + 1) 0 = 1 := by
            rw [dpA, if_pos hv, if_pos rfl]
          have h2 : dpA a pop h 0 0 = 1 := by
            rw [dpA, if_pos hvj]
          omega
        | succ j0 =>
          have h1 : dpA a pop h (r + 1) (j0 + 1) = dpA a pop h r j0 + 1 := by
            rw [dpA, if_pos hv, if_neg (Nat.succ_ne_zero j0)]
            simp
          have h2 : dpA a pop h (j0 + 1) (j0 + 1) = dpA a pop h j0 j0 + 1 := by
            rw [dpA, if_pos hvj, if_neg (Nat.succ_ne_zero j0)]
            simp
          have h3 := ih j0 (by omega)
          omega
    · rw [dpA_eq_zero a pop h hv]
      exact Nat.zero_le _

/-- A chain of row `r` ending at any column is dominated by the chain of
row `r` ending at the diagonal column `r` (for `r < h`). -/
theorem dpA_le_diag_row (a : List Char) (pop : Char → Bool) (h : Nat) :
    ∀ r, r < h → ∀ j, dpA a pop h r j ≤ dpA a pop h r r := by
  intro r
  induction r with
  | zero =>
    intro hr j
    by_cases hv : visitP a a pop 0 h 0 j
    · obtain ⟨h0, hjh, hchar, hpop⟩ := id hv
      have hv0 : visitP a a pop 0 h 0 0 := ⟨Nat.zero_le _, hr, rfl, hpop⟩
      have h2 : dpA a pop h 0 0 = 1 := by
        rw [dpA, if_pos hv0]
      have h3 := dpA_le a pop h 0 j
      omega
    · rw [dpA_eq_zero a pop h hv]
      exact Nat.zero_le _
  | succ r ih =>
    intro hr j
    by_cases hv : visitP a a pop 0 h (r + 1) j
    · obtain ⟨h0, hjh, hchar, hpop⟩ := id hv
      have hvd : visitP a a pop 0 h (r + 1) (r + 1) := ⟨Nat.zero_le _, hr, rfl, hpop⟩
      have htarget : dpA a pop h (r + 1) (r + 1) = dpA a pop h r r + 1 := by
        rw [dpA, if_pos hvd, if_neg (Nat.succ_ne_zero r)]
        simp
      rw [htarget, dpA, if_pos hv]
      split
      · omega
      · have := ih (by omega) (j - 1)
        omega
    · rw [dpA_eq_zero a pop h hv]
      exact Nat.zero_le _

/-- Unfolded form of `innerStep` (the `let`s inlined). -/
theorem innerStep_eq (a b : List Char) (pop : Char → Bool) (blo bhi i : Nat)
    (old : Nat → Nat) (st : FState) (j : Nat) :
    innerStep a b pop blo bhi i old st j =
      if visitP a b pop blo bhi i j then
        (if st.bs < (if j = 0 then 1 else old (j - 1) + 1) then
          ⟨fun x => if x = j then (if j = 0 then 1 else old (j - 1) + 1) else st.j2len x,
            i + 1 - (if j = 0 then 1 else old (j - 1) + 1),
            j + 1 - (if j = 0 then 1 else old (j - 1) + 1),
            if j = 0 then 1 else old (j - 1) + 1⟩
        else
          ⟨fun x => if x = j then (if j = 0 then 1 else old (j - 1) + 1) else st.j2len x,
            st.bi, st.bj, st.bs⟩)
      else st := rfl

/-- One inner-loop step preserves the diagonal invariant (self-comparison
case): a strictly improving chain can only end on the diagonal. -/
theorem innerStep_diag (a : List Char) (pop : Char → Bool) (h r m : Nat) (hr : r < h)
    (old : Nat → Nat)
    (hold : ∀ j, visitP a a pop 0 h r j →
      (if j = 0 then 1 else old (j - 1) + 1) = dpA a pop h r j)
    (st : FState) (hinv : DiagInv a pop h r m st) :
    DiagInv a pop h r (m + 1) (innerStep a a pop 0 h r old st m) := by
  obtain ⟨hj2, hbij, hsum, hrows, hcols⟩ := hinv
  rw [innerStep_eq]
  by_cases hv : visitP a a pop 0 h r m
  · rw [if_pos hv]
    have hk : (if m = 0 then 1 else old (m - 1) + 1) = dpA a pop h r m := hold m hv
    rw [hk]
    have hkle : dpA a pop h r m ≤ r + 1 := dpA_le a pop h r m
    by_cases hlt : st.bs < dpA a pop h r m
    · rw [if_pos hlt]
      have hm_eq_r : m = r := by
        rcases Nat.lt_trichotomy m r with hmr | hmr | hmr
        · exfalso
          have k1 : dpA a pop h r m ≤ dpA a pop h m m :=
            dpA_le_diag_col a pop h r m (by omega)
          have k2 : dpA a pop h m m ≤ st.bs := hrows m hmr m
          omega
        · exact hmr
        · exfalso
          have k1 : dpA a pop h r m ≤ dpA a pop h r r := dpA_le_diag_row a pop h r hr m
          have k2 : dpA a pop h r r ≤ st.bs := hcols r hmr
          omega
      refine ⟨fun j => ?_, ?_, ?_, ?_, ?_⟩
      · dsimp only
        by_cases hjm : j = m
        · rw [if_pos hjm, hjm, if_pos (Nat.lt_succ_self m)]
        · rw [if_neg hjm, hj2 j]
          by_cases hjlt : j < m
          · rw [if_pos hjlt, if_pos (by omega : j < m + 1)]
          · rw [if_neg hjlt, if_neg (by omega : ¬ j < m + 1)]
      · dsimp only
        rw [hm_eq_r]
      · dsimp only
        omega
      · intro r2 hr2 j2
        have := hrows r2 hr2 j2
        dsimp only
        omega
      · intro j2 hj2m
        dsimp only
        by_cases hjm : j2 = m
        · rw [hjm]
        · have := hcols j2 (by omega)
          omega
    · rw [if_neg hlt]
      refine ⟨fun j => ?_, hbij, hsum, hrows, ?_⟩
      · dsimp only
        by_cases hjm : j = m
        · rw [if_pos hjm, hjm, if_pos (Nat.lt_succ_self m)]
        · rw [if_neg hjm, hj2 j]
          by_cases hjlt : j < m
          · rw [if_pos hjlt, if_pos (by omega : j < m + 1)]
          · rw [if_neg hjlt, if_neg (by omega : ¬ j < m + 1)]
      · intro j2 hj2m
        dsimp only
        by_cases hjm : j2 = m
        · rw [hjm]
          omega
        · exact hcols j2 (by omega)
  · rw [if_neg hv]
    have hzero : dpA a pop h r m = 0 := dpA_eq_zero a pop h hv
    refine ⟨fun j => ?_, hbij, hsum, hrows, ?_⟩
    · rw [hj2 j]
      by_cases hjm : j = m
      · rw [hjm, if_neg (by omega : ¬ m < m), if_pos (Nat.lt_succ_self m), hzero]
      · by_cases hjlt : j < m
        · rw [if_pos hjlt, if_pos (by omega : j < m + 1)]
        · rw [if_neg hjlt, if_neg (by omega : ¬ j < m + 1)]
    · intro j2 hj2m
      by_cases hjm : j2 = m
      · rw [hjm, hzero]
        exact Nat.zero_le _
      · exact hcols j2 (by omega)

/-- The inner fold over any consecutive block of columns preserves the
diagonal invariant, advancing the processed bound. -/
theorem innerFold_diag (a : List Char) (pop : Char → Bool) (h r : Nat) (hr : r < h)
    (old : Nat → Nat)
    (hold : ∀ j, visitP a a pop 0 h r j →
      (if j = 0 then 1 else old (j - 1) + 1) = dpA a pop h r j) :
    ∀ (cnt m : Nat) (st : FState), DiagInv a pop h r m st →
      DiagInv a pop h r (m + cnt)
        ((List.range' m cnt).foldl (innerStep a a pop 0 h r old) st) := by
  intro cnt
  induction cnt with
  | zero =>
    intro m st hinv
    simpa using hinv
  | succ c ih =>
    intro m st hinv
    rw [List.range'_succ, List.foldl_cons]
    have hstep := innerStep_diag a pop h r m hr old hold st hinv
    have := ih (m + 1) _ hstep
    have harith : m + 1 + c = m + (c + 1) := by omega
    rwa [harith] at this

/-- A full row of the main loop turns the invariant for `n` rows into the
invariant for `n + 1` rows (self-comparison case). -/
theorem rowStep_diag (a : List Char) (pop : Char → Bool) (h n : Nat) (hn : n < h)
    (st : FState) (hinv : RowsInv a pop h n st) :
    RowsInv a pop h (n + 1) (rowStep a a pop 0 h st n) := by
  obtain ⟨hj2, hbij, hsum, hrows⟩ := hinv
  have hold : ∀ j, visitP a a pop 0 h n j →
      (if j = 0 then 1 else st.j2len (j - 1) + 1) = dpA a pop h n j := by
    intro j hv
    cases n with
    | zero =>
      rw [hj2 (j - 1), if_pos rfl]
      rw [dpA, if_pos hv]
      cases j <;> simp
    | succ n0 =>
      rw [hj2 (j - 1), if_neg (Nat.succ_ne_zero n0)]
      conv_rhs => rw [dpA, if_pos hv]
      simp only [Nat.add_sub_cancel]
  have hstart : DiagInv a pop h n 0 { st with j2len := fun _ => 0 } := by
    refine ⟨fun j => ?_, hbij, by simp only; omega, fun r2 hr2 j2 => hrows r2 hr2 j2,
      fun j2 hj2m => absurd hj2m (Nat.not_lt_zero j2)⟩
    rw [if_neg (Nat.not_lt_zero j)]
  have hfold := innerFold_diag a pop h n hn st.j2len hold (h - 0) 0
    { st with j2len := fun _ => 0 } hstart
  rw [rowStep]
  have hh : (0 : Nat) + (h - 0) = h := by omega
  rw [hh] at hfold
  obtain ⟨hj2f, hbijf, hsumf, hrowsf, hcolsf⟩ := hfold
  refine ⟨fun j => ?_, hbijf, hsumf, fun r2 hr2 j2 => ?_⟩
  · rw [hj2f j, if_neg (Nat.succ_ne_zero n)]
    simp only [Nat.add_sub_cancel]
    by_cases hjh : j < h
    · rw [if_pos hjh]
    · rw [if_neg hjh]
      have hnv : ¬ visitP a a pop 0 h n j := by
        intro hv
        exact hjh hv.2.1
      rw [dpA_eq_zero a pop h hnv]
  · rcases Nat.lt_or_ge r2 n with hlt | hge
    · exact hrowsf r2 hlt j2
    · have hr2n : r2 = n := by omega
      subst hr2n
      by_cases hjh : j2 < h
      · exact hcolsf j2 hjh
      · have hnv : ¬ visitP a a pop 0 h r2 j2 := fun hv => hjh hv.2.1
        rw [dpA_eq_zero a pop h hnv]
        exact Nat.zero_le _

/-- The fold over any consecutive block of rows preserves `RowsInv`. -/
theorem rowsFold_diag (a : List Char) (pop : Char → Bool) (h : Nat) :
    ∀ (cnt n : Nat) (st : FState), n + cnt ≤ h → RowsInv a pop h n st →
      RowsInv a pop h (n + cnt)
        ((List.range' n cnt).foldl (rowStep a a pop 0 h) st) := by
  intro cnt
  induction cnt with
  | zero =>
    intro n st hle hinv
    simpa using hinv
  | succ c ih =>
    intro n st hle hinv
    rw [List.range'_succ, List.foldl_cons]
    have hstep := rowStep_diag a pop h n (by omega) st hinv
    have := ih (n + 1) _ (by omega) hstep
    have harith : n + 1 + c = n + (c + 1) := by omega
    rwa [harith] at this

/-- After the whole main loop on identical strings with the full window,
the invariant holds for all `h` rows: in particular the best block is
diagonal and ends within the window. -/
theorem mainLoop_diag (a : List Char) (pop : Char → Bool) (h : Nat) :
    RowsInv a pop h h (mainLoop a a pop 0 h 0 h) := by
  have hinit : RowsInv a pop h 0 ⟨fun _ => 0, 0, 0, 0⟩ :=
    ⟨fun j => by rw [if_pos rfl], rfl, Nat.le_refl 0,
      fun r2 hr2 => absurd hr2 (Nat.not_lt_zero r2)⟩
  have := rowsFold_diag a pop h (h - 0) 0 ⟨fun _ => 0, 0, 0, 0⟩ (by omega) hinit
  rw [mainLoop]
  have hh : (0 : Nat) + (h - 0) = h := by omega
  rwa [hh] at this

/-- On identical strings with the full window, the backward non-junk
extension walks a diagonal block all the way back to `0`. -/
theorem extLo_diag_self (a : List Char) :
    ∀ bi bs, extLo a a (fun _ => false) false 0 0 bi bi bs = (0, 0, bs + bi) := by
  intro bi
  induction bi with
  | zero =>
    intro bs
    rfl
  | succ bi ih =>
    intro bs
    have hcond : 0 < bi + 1 ∧ 0 < bi + 1 ∧
        (fun _ => false) (a.getD (bi + 1 - 1) ' ') = false ∧
        a.getD bi ' ' = a.getD (bi + 1 - 1) ' ' :=
      ⟨Nat.succ_pos bi, Nat.succ_pos bi, rfl, rfl⟩
    rw [extLo, if_pos hcond]
    simp only [Nat.add_sub_cancel]
    rw [ih (bs + 1)]
    have harith : bs + 1 + bi = bs + (bi + 1) := by omega
    rw [harith]

/-- On identical strings with the full window, the forward non-junk
extension grows a diagonal block anchored at `0` to the full length. -/
theorem extHi_diag_self (a : List Char) (h : Nat) :
    ∀ fuel bs, h ≤ bs + fuel → bs ≤ h →
      extHi a a (fun _ => false) false h h 0 0 fuel bs = h := by
  intro fuel
  induction fuel with
  | zero =>
    intro bs h1 h2
    rw [extHi]
    omega
  | succ f ih =>
    intro bs h1 h2
    by_cases hbs : bs < h
    · have hcond : 0 + bs < h ∧ 0 + bs < h ∧
          (fun _ => false) (a.getD (0 + bs) ' ') = false ∧
          a.getD (0 + bs) ' ' = a.getD (0 + bs) ' ' :=
        ⟨by omega, by omega, rfl, rfl⟩
      rw [extHi, if_pos hcond]
      exact ih (bs + 1) (by omega) (by omega)
    · rw [extHi, if_neg (fun hc => absurd hc.1 (by omega))]
      omega

/-- The junk phase is inert when the junk set is empty (backward loop). -/
theorem extLo_flag_mismatch (a b : List Char) (alo blo : Nat) :
    ∀ bi bj bs, extLo a b (fun _ => false) true alo blo bi bj bs = (bi, bj, bs) := by
  intro bi bj bs
  cases bi with
  | zero => rfl
  | succ bi0 =>
    rw [extLo, if_neg (fun hc => by simpa using hc.2.2.1)]

/-- The junk phase is inert when the junk set is empty (forward loop). -/
theorem extHi_flag_mismatch (a b : List Char) (ahi bhi bi bj : Nat) :
    ∀ fuel bs, extHi a b (fun _ => false) true ahi bhi bi bj fuel bs = bs := by
  intro fuel bs
  cases fuel with
  | zero => rfl
  | succ f =>
    rw [extHi, if_neg (fun hc => by simpa using hc.2.2.1)]

/-- The non-junk extension phase carries a diagonal block `(d, d, s)` with
`d + s ≤ h` to the full-window block `(0, 0, h)` on identical strings. -/
theorem extPhase_diag_self (a : List Char) (h d s : Nat) (hsum : d + s ≤ h) :
    extPhase a a (fun _ => false) false 0 h 0 h (d, d, s) = (0, 0, h) := by
  rw [extPhase]
  dsimp only
  rw [extLo_diag_self]
  dsimp only
  rw [extHi_diag_self a h h (s + d) (by omega) (by omega)]

/-- The junk extension phase is the identity when the junk set is empty. -/
theorem extPhase_junk_id (a b : List Char) (alo ahi blo bhi : Nat) (t : Nat × Nat × Nat) :
    extPhase a b (fun _ => false) true alo ahi blo bhi t = t := by
  rw [extPhase, extLo_flag_mismatch]
  dsimp only
  rw [extHi_flag_mismatch]

/-- `find_longest_match` on identical strings with the full window returns
the whole string as a single block. -/
theorem find_longest_match_self (a : List Char) (pop : Char → Bool) (h : Nat) :
    find_longest_match a a (fun _ => false) pop 0 h 0 h = (0, 0, h) := by
  obtain ⟨hj2, hbij, hsum, hrows⟩ := mainLoop_diag a pop h
  rw [find_longest_match, hbij]
  rw [hbij] at hsum
  rw [extPhase_diag_self a h _ _ hsum, extPhase_junk_id]

theorem extLo_stuck (a b : List Char) (bjunk : Char → Bool) (flag : Bool) (alo blo : Nat)
    (bi bj bs : Nat) (hbi : bi ≤ alo) :
    extLo a b bjunk flag alo blo bi bj bs = (bi, bj, bs) := by
  cases bi with
  | zero => rfl
  | succ bi0 =>
    rw [extLo, if_neg (fun hc => absurd hc.1 (by omega))]

theorem extHi_stuck (a b : List Char) (bjunk : Char → Bool) (flag : Bool) (ahi bhi bi bj : Nat)
    (fuel bs : Nat) (hst : ahi ≤ bi + bs) :
    extHi a b bjunk flag ahi bhi bi bj fuel bs = bs := by
  cases fuel with
  | zero => rfl
  | succ f =>
    rw [extHi, if_neg (fun hc => absurd hc.1 (by omega))]

/-- On an empty window `[l, l) × [l, l)`, `find_longest_match` returns
`(l, l, 0)`. -/
theorem find_longest_match_empty (a b : List Char) (bjunk pop : Char → Bool) (l : Nat) :
    find_longest_match a b bjunk pop l l l l = (l, l, 0) := by
  have hM : mainLoop a b pop l l l l = ⟨fun _ => 0, l, l, 0⟩ := by
    rw [mainLoop, Nat.sub_self]
    rfl
  have h1 : ∀ flag, extPhase a b bjunk flag l l l l (l, l, 0) = (l, l, 0) := by
    intro flag
    rw [extPhase]
    dsimp only
    rw [extLo_stuck a b bjunk flag l l l l 0 (Nat.le_refl l)]
    dsimp only
    rw [extHi_stuck a b bjunk flag l l l l l 0 (by omega)]
  rw [find_longest_match, hM]
  dsimp only
  rw [h1, h1]

theorem matchesTotal_empty (a b : List Char) (bjunk pop : Char → Bool) :
    ∀ fuel l, matchesTotal a b bjunk pop fuel l l l l = 0 := by
  intro fuel l
  cases fuel with
  | zero => rfl
  | succ f =>
    rw [matchesTotal, find_longest_match_empty]
    simp

/-- The total matched size on identical strings with the full window is the
whole length (any positive fuel suffices; zero length needs none). -/
theorem matchesTotal_self (a : List Char) (pop : Char → Bool) :
    ∀ fuel h, (h = 0 ∨ 1 ≤ fuel) →
      matchesTotal a a (fun _ => false) pop fuel 0 h 0 h = h := by
  intro fuel h hf
  cases fuel with
  | zero =>
    rcases hf with h0 | h1
    · rw [h0]; rfl
    · omega
  | succ f =>
    rw [matchesTotal, find_longest_match_self]
    dsimp only
    by_cases hh : h = 0
    · rw [if_pos hh]
      omega
    · rw [if_neg hh, matchesTotal_empty, Nat.zero_add, matchesTotal_empty]
      omega

/-- `seqMatcherMatches` of a string with itself is its length. -/
theorem seqMatcherMatches_self (a : List Char) :
    seqMatcherMatches a a = a.length := by
  rw [seqMatcherMatches]
  cases hl : a.length with
  | zero =>
    rw [matchesTotal_self a (popularB a) _ _ (Or.inl rfl)]
  | succ n =>
    rw [matchesTotal_self a (popularB a) _ _ (Or.inr (by omega))]

/-- One inner-loop step (arbitrary strings) keeps every `j2len` entry and
the best block inside the window. -/
theorem innerStep_bounds (a b : List Char) (pop : Char → Bool) (alo blo ahi bhi i : Nat)
    (hi1 : alo ≤ i) (hi2 : i < ahi) (old : Nat → Nat)
    (hold : J2Bound blo bhi (i - alo) old) (st : FState)
    (hj : J2Bound blo bhi (i - alo + 1) st.j2len)
    (hb : BestInWindow alo blo ahi bhi st.bi st.bj st.bs) (j : Nat) :
    J2Bound blo bhi (i - alo + 1) (innerStep a b pop blo bhi i old st j).j2len ∧
      BestInWindow alo blo ahi bhi (innerStep a b pop blo bhi i old st j).bi
        (innerStep a b pop blo bhi i old st j).bj
        (innerStep a b pop blo bhi i old st j).bs := by
  rw [innerStep_eq]
  by_cases hv : visitP a b pop blo bhi i j
  · rw [if_pos hv]
    obtain ⟨hjlo, hjhi, -, -⟩ := id hv
    have hkle : (if j = 0 then 1 else old (j - 1) + 1) ≤ i - alo + 1 := by
      split
      · omega
      · have := (hold (j - 1)).1
        omega
    have hkcol : (if j = 0 then 1 else old (j - 1) + 1) + blo ≤ j + 1 := by
      split
      · omega
      · by_cases h0 : old (j - 1) = 0
        · rw [h0]
          omega
        · have := (hold (j - 1)).2 h0
          omega
    have hknz : (if j = 0 then 1 else old (j - 1) + 1) ≠ 0 := by
      split <;> omega
    have hjlen : J2Bound blo bhi (i - alo + 1)
        (fun x => if x = j then (if j = 0 then 1 else old (j - 1) + 1) else st.j2len x) := by
      intro jj
      by_cases hjj : jj = j
      · rw [hjj]
        simp only [if_pos rfl]
        exact ⟨hkle, fun _ => ⟨hjlo, hjhi, hkcol⟩⟩
      · simp only [if_neg hjj]
        exact hj jj
    by_cases hlt : st.bs < (if j = 0 then 1 else old (j - 1) + 1)
    · rw [if_pos hlt]
      refine ⟨hjlen, ?_, ?_, ?_, ?_⟩
      · dsimp only
        omega
      · dsimp only
        omega
      · dsimp only
        intro habs
        exact absurd habs hknz
      · dsimp only
        intro _
        constructor
        · omega
        · omega
    · rw [if_neg hlt]
      exact ⟨hjlen, hb⟩
  · rw [if_neg hv]
    exact ⟨hj, hb⟩

/-- The inner fold over any column list keeps the window bounds. -/
theorem innerFold_bounds (a b : List Char) (pop : Char → Bool) (alo blo ahi bhi i : Nat)
    (hi1 : alo ≤ i) (hi2 : i < ahi) (old : Nat → Nat)
    (hold : J2Bound blo bhi (i - alo) old) :
    ∀ (js : List Nat) (st : FState),
      J2Bound blo bhi (i - alo + 1) st.j2len →
      BestInWindow alo blo ahi bhi st.bi st.bj st.bs →
      J2Bound blo bhi (i - alo + 1) ((js.foldl (innerStep a b pop blo bhi i old) st).j2len) ∧
        BestInWindow alo blo ahi bhi ((js.foldl (innerStep a b pop blo bhi i old) st).bi)
          ((js.foldl (innerStep a b pop blo bhi i old) st).bj)
          ((js.foldl (innerStep a b pop blo bhi i old) st).bs) := by
  intro js
  induction js with
  | nil =>
    intro st h1 h2
    exact ⟨h1, h2⟩
  | cons j rest ih =>
    intro st h1 h2
    rw [List.foldl_cons]
    obtain ⟨h1s, h2s⟩ := innerStep_bounds a b pop alo blo ahi bhi i hi1 hi2 old hold st h1 h2 j
    exact ih _ h1s h2s

/-- One full row keeps the window bounds, advancing the row count. -/
theorem rowStep_bounds (a b : List Char) (pop : Char → Bool) (alo blo ahi bhi i : Nat)
    (hi1 : alo ≤ i) (hi2 : i < ahi) (st : FState)
    (hj : J2Bound blo bhi (i - alo) st.j2len)
    (hb : BestInWindow alo blo ahi bhi st.bi st.bj st.bs) :
    J2Bound blo bhi (i - alo + 1) ((rowStep a b pop blo bhi st i).j2len) ∧
      BestInWindow alo blo ahi bhi ((rowStep a b pop blo bhi st i).bi)
        ((rowStep a b pop blo bhi st i).bj) ((rowStep a b pop blo bhi st i).bs) := by
  rw [rowStep]
  refine innerFold_bounds a b pop alo blo ahi bhi i hi1 hi2 st.j2len hj _
    { st with j2len := fun _ => 0 } (fun jj => ⟨Nat.zero_le _, fun habs => absurd rfl habs⟩) hb

/-- The fold over a consecutive block of rows keeps the window bounds. -/
theorem rowsFold_bounds (a b : List Char) (pop : Char → Bool) (alo blo ahi bhi : Nat) :
    ∀ (cnt n : Nat) (st : FState), n + cnt ≤ ahi - alo →
      J2Bound blo bhi n st.j2len →
      BestInWindow alo blo ahi bhi st.bi st.bj st.bs →
      BestInWindow alo blo ahi bhi
        (((List.range' (alo + n) cnt).foldl (rowStep a b pop blo bhi) st).bi)
        (((List.range' (alo + n) cnt).foldl (rowStep a b pop blo bhi) st).bj)
        (((List.range' (alo + n) cnt).foldl (rowStep a b pop blo bhi) st).bs) := by
  intro cnt
  induction cnt with
  | zero =>
    intro n st hle hj hb
    simpa using hb
  | succ c ih =>
    intro n st hle hj hb
    rw [List.range'_succ, List.foldl_cons]
    have hi1 : alo ≤ alo + n := by omega
    have hi2 : alo + n < ahi := by omega
    have harith : alo + n - alo = n := by omega
    rw [← harith] at hj
    obtain ⟨hjs, hbs⟩ := rowStep_bounds a b pop alo blo ahi bhi (alo + n) hi1 hi2 st hj hb
    rw [harith] at hjs
    have := ih (n + 1) _ (by omega) hjs hbs
    have harith2 : alo + (n + 1) = alo + n + 1 := by omega
    rwa [harith2] at this

/-- The main loop's best block lies in the window. -/
theorem mainLoop_bounds (a b : List Char) (pop : Char → Bool) (alo ahi blo bhi : Nat) :
    BestInWindow alo blo ahi bhi (mainLoop a b pop alo ahi blo bhi).bi
      (mainLoop a b pop alo ahi blo bhi).bj (mainLoop a b pop alo ahi blo bhi).bs := by
  rw [mainLoop]
  have h0 : J2Bound blo bhi 0 (fun _ => (0 : Nat)) :=
    fun jj => ⟨Nat.le_refl 0, fun habs => absurd rfl habs⟩
  have hb0 : BestInWindow alo blo ahi bhi alo blo 0 :=
    ⟨Nat.le_refl _, Nat.le_refl _, fun _ => ⟨rfl, rfl⟩, fun habs => absurd rfl habs⟩
  have := rowsFold_bounds a b pop alo blo ahi bhi (ahi - alo) 0 ⟨fun _ => 0, alo, blo, 0⟩
    (by omega) h0 hb0
  rwa [Nat.add_zero] at this

/-- The backward extension loops keep the window bounds. -/
theorem extLo_bounds (a b : List Char) (bjunk : Char → Bool) (flag : Bool)
    (alo blo ahi bhi : Nat) :
    ∀ bi bj bs, BestInWindow alo blo ahi bhi bi bj bs →
      BestInWindow alo blo ahi bhi (extLo a b bjunk flag alo blo bi bj bs).1
        (extLo a b bjunk flag alo blo bi bj bs).2.1
        (extLo a b bjunk flag alo blo bi bj bs).2.2 := by
  intro bi
  induction bi with
  | zero =>
    intro bj bs hb
    exact hb
  | succ bi0 ih =>
    intro bj bs hb
    rw [extLo]
    by_cases hc : alo < bi0 + 1 ∧ blo < bj ∧ bjunk (b.getD (bj - 1) ' ') = flag ∧
        a.getD bi0 ' ' = b.getD (bj - 1) ' '
    · rw [if_pos hc]
      obtain ⟨hb1, hb2, hb3, hb4⟩ := hb
      have hbsnz : bs ≠ 0 := by
        intro h0
        obtain ⟨he1, -⟩ := hb3 h0
        omega
      obtain ⟨hs1, hs2⟩ := hb4 hbsnz
      refine ih (bj - 1) (bs + 1) ⟨by omega, by omega, fun habs => by omega, fun _ => ?_⟩
      constructor
      · omega
      · omega
    · rw [if_neg hc]
      exact hb

/-- The forward extension loops keep the window bounds. -/
theorem extHi_bounds (a b : List Char) (bjunk : Char → Bool) (flag : Bool)
    (alo blo ahi bhi bi bj : Nat) (h1 : alo ≤ bi) (h2 : blo ≤ bj) :
    ∀ fuel bs, (bs = 0 → bi = alo ∧ bj = blo) → (bs ≠ 0 → bi + bs ≤ ahi ∧ bj + bs ≤ bhi) →
      BestInWindow alo blo ahi bhi bi bj (extHi a b bjunk flag ahi bhi bi bj fuel bs) := by
  intro fuel
  induction fuel with
  | zero =>
    intro bs hz hnz
    exact ⟨h1, h2, hz, hnz⟩
  | succ f ih =>
    intro bs hz hnz
    rw [extHi]
    by_cases hc : bi + bs < ahi ∧ bj + bs < bhi ∧ bjunk (b.getD (bj + bs) ' ') = flag ∧
        a.getD (bi + bs) ' ' = b.getD (bj + bs) ' '
    · rw [if_pos hc]
      exact ih (bs + 1) (fun habs => by omega) (fun _ => ⟨by omega, by omega⟩)
    · rw [if_neg hc]
      exact ⟨h1, h2, hz, hnz⟩

/-- An extension phase keeps the window bounds. -/
theorem extPhase_bounds (a b : List Char) (bjunk : Char → Bool) (flag : Bool)
    (alo ahi blo bhi : Nat) (t : Nat × Nat × Nat)
    (hb : BestInWindow alo blo ahi bhi t.1 t.2.1 t.2.2) :
    BestInWindow alo blo ahi bhi (extPhase a b bjunk flag alo ahi blo bhi t).1
      (extPhase a b bjunk flag alo ahi blo bhi t).2.1
      (extPhase a b bjunk flag alo ahi blo bhi t).2.2 := by
  have hlo := extLo_bounds a b bjunk flag alo blo ahi bhi t.1 t.2.1 t.2.2 hb
  rw [extPhase]
  rcases hE : extLo a b bjunk flag alo blo t.1 t.2.1 t.2.2 with ⟨bi, bj, bs⟩
  rw [hE] at hlo
  obtain ⟨g1, g2, g3, g4⟩ := hlo
  exact extHi_bounds a b bjunk flag alo blo ahi bhi bi bj g1 g2 ahi bs g3 g4

/-- The block returned by `find_longest_match` lies in the window. -/
theorem find_longest_match_bounds (a b : List Char) (bjunk pop : Char → Bool)
    (alo ahi blo bhi : Nat) :
    BestInWindow alo blo ahi bhi (find_longest_match a b bjunk pop alo ahi blo bhi).1
      (find_longest_match a b bjunk pop alo ahi blo bhi).2.1
      (find_longest_match a b bjunk pop alo ahi blo bhi).2.2 := by
  rw [find_longest_match]
  exact extPhase_bounds a b bjunk true alo ahi blo bhi _
    (extPhase_bounds a b bjunk false alo ahi blo bhi _
      (mainLoop_bounds a b pop alo ahi blo bhi))

/-- The total matched size is at most the length of the `a`-window. -/
theorem matchesTotal_le_a (a b : List Char) (bjunk pop : Char → Bool) :
    ∀ fuel alo ahi blo bhi,
      matchesTotal a b bjunk pop fuel alo ahi blo bhi ≤ ahi - alo := by
  intro fuel
  induction fuel with
  | zero =>
    intro alo ahi blo bhi
    exact Nat.zero_le _
  | succ f ih =>
    intro alo ahi blo bhi
    have hbw := find_longest_match_bounds a b bjunk pop alo ahi blo bhi
    rw [matchesTotal]
    rcases hF : find_longest_match a b bjunk pop alo ahi blo bhi with ⟨i, j, k⟩
    rw [hF] at hbw
    obtain ⟨g1, g2, g3, g4⟩ := hbw
    dsimp only at g1 g2 g3 g4 ⊢
    by_cases hk : k = 0
    · rw [if_pos hk]
      exact Nat.zero_le _
    · rw [if_neg hk]
      obtain ⟨g5, g6⟩ := g4 hk
      have m1 := ih alo i blo j
      have m2 := ih (i + k) ahi (j + k) bhi
      omega

/-- The total matched size is at most the length of the `b`-window. -/
theorem matchesTotal_le_b (a b : List Char) (bjunk pop : Char → Bool) :
    ∀ fuel alo ahi blo bhi,
      matchesTotal a b bjunk pop fuel alo ahi blo bhi ≤ bhi - blo := by
  intro fuel
  induction fuel with
  | zero =>
    intro alo ahi blo bhi
    exact Nat.zero_le _
  | succ f ih =>
    intro alo ahi blo bhi
    have hbw := find_longest_match_bounds a b bjunk pop alo ahi blo bhi
    rw [matchesTotal]
    rcases hF : find_longest_match a b bjunk pop alo ahi blo bhi with ⟨i, j, k⟩
    rw [hF] at hbw
    obtain ⟨g1, g2, g3, g4⟩ := hbw
    dsimp only at g1 g2 g3 g4 ⊢
    by_cases hk : k = 0
    · rw [if_pos hk]
      exact Nat.zero_le _
    · rw [if_neg hk]
      obtain ⟨g5, g6⟩ := g4 hk
      have m1 := ih alo i blo j
      have m2 := ih (i + k) ahi (j + k) bhi
      omega

/-- C7 (amended): the ratio used by `fuzzy_match` always lies in `[0, 1]`
and equals `1` on identical strings, but it is not symmetric (see the
counterexample). -/
theorem pyRatio_range_and_identity :
    (∀ a b : String, 0 ≤ pyRatio a b ∧ pyRatio a b ≤ 1) ∧
      ∀ a : String, pyRatio a a = 1 := by
  constructor
  · intro a b
    rw [pyRatio, calcRatio]
    by_cases hT : a.data.length + b.data.length = 0
    · rw [if_pos hT]
      norm_num
    · rw [if_neg hT]
      constructor
      · positivity
      · rw [div_le_one (by positivity)]
        have hA : seqMatcherMatches a.data b.data ≤ a.data.length := by
          have := matchesTotal_le_a a.data b.data (fun _ => false) (popularB b.data)
            (a.data.length + b.data.length) 0 a.data.length 0 b.data.length
          simpa using this
        have hB : seqMatcherMatches a.data b.data ≤ b.data.length := by
          have := matchesTotal_le_b a.data b.data (fun _ => false) (popularB b.data)
            (a.data.length + b.data.length) 0 a.data.length 0 b.data.length
          simpa using this
        have h2 : 2 * seqMatcherMatches a.data b.data ≤
            a.data.length + b.data.length := by omega
        exact_mod_cast h2
  · intro a
    rw [pyRatio, calcRatio, seqMatcherMatches_self]
    by_cases hT : a.data.length + a.data.length = 0
    · rw [if_pos hT]
    · rw [if_neg hT]
      have hq2 : ((a.data.length + a.data.length : Nat) : ℚ) ≠ 0 := by
        exact_mod_cast hT
      have hcast : (2 : ℚ) * a.data.length = ((a.data.length + a.data.length : Nat) : ℚ) := by
        push_cast
        ring
      rw [hcast, div_self hq2]

/-- C4 witness: a concrete career with a 2020-2022 stint at an aliased
school and one NMDP year; the emitted record's academic year comes from a
season inside the `[2020, 2026)` window. -/
theorem find_overlaps_for_coach_year_window_witness :
    ∃ stint ∈ [(⟨"Oregon State", "2020-2022", "HC"⟩ : CareerStint)], ∃ y,
      y ∈ parse_year_range stint.years 2026 ∧ 2020 ≤ y ∧ y < 2026 ∧
      (⟨"OREGON STATE UNIVERSITY", "Oregon State", "2020-2021", "HC",
        "alias"⟩ : OverlapRecord).academic_year = year_to_academic_year y :=
  find_overlaps_for_coach_year_window
    [⟨"Oregon State", "2020-2022", "HC"⟩]
    [("OREGON STATE UNIVERSITY", ["2020-2021"])]
    ⟨["OREGON STATE UNIVERSITY"], [("OREGON STATE", "OREGON STATE UNIVERSITY")], []⟩
    2020 2026
    ⟨"OREGON STATE UNIVERSITY", "Oregon State", "2020-2021", "HC", "alias"⟩
    (by decide)

end GitgSearch
